import Mathlib

/-!
go-mail-sim: message store and SMTP session handler

A shallow embedding of `server/email.go` (the in-memory message store) and of
`handleConnection` in `server/smtp.go` (the line-oriented SMTP subset), followed
by theorems about them.

Modelling conventions.

* A Go `string` is a `Str`, the list of its runes; the texts are taken to be
  valid UTF-8, so that one `Char` stands for one rune.
* `time.Time` is a `Time`, a natural number of clock units; `0` is the zero
  instant (`IsZero`). The clock is a function `clock : Nat → Time` giving the
  successive results of `time.Now()`; the number of readings made so far is
  threaded through the state.
* The connection is its sequence of input lines, as delivered one by one by
  `scanner.Scan()` / `scanner.Text()`; the end of the list is the point where
  `Scan` reports false (end of input or read failure). The replies passed to
  `conn.Write` are collected in order. Logging is not modelled.
* The mutex is not modelled: each store operation is one atomic function.
-/

namespace GoMailSim

/-! ## Strings -/

/-- Go string, as the list of its runes. -/
abbrev Str := List Char

/-- Rune predicate `unicode.IsSpace`: the Unicode White_Space code points. -/
def isSpace (c : Char) : Bool :=
  let n := c.toNat
  (9 ≤ n && n ≤ 13) || n == 32 || n == 0x85 || n == 0xA0 || n == 0x1680 ||
  (0x2000 ≤ n && n ≤ 0x200A) || n == 0x2028 || n == 0x2029 || n == 0x202F ||
  n == 0x205F || n == 0x3000

/-- Rune map `unicode.ToUpper`. ASCII letters are mapped inside ASCII; the
only runes outside ASCII that Go maps into ASCII are U+0131 (to `I`) and U+017F
(to `S`). Every other rune goes to a rune outside ASCII and is kept as it is
here: the handler compares the result only with ASCII keywords. -/
def upperRune (c : Char) : Char :=
  if 97 ≤ c.toNat ∧ c.toNat ≤ 122 then Char.ofNat (c.toNat - 32)
  else if c.toNat = 0x131 then 'I'
  else if c.toNat = 0x17F then 'S'
  else c

/-- Rune map `unicode.ToLower`. ASCII letters are mapped inside ASCII; the
only runes outside ASCII that Go maps into ASCII are U+0130 (to `i`) and U+212A
(to `k`). Every other rune goes to a rune outside ASCII and is kept as it is
here: the handler compares the result only with ASCII patterns. -/
def lowerRune (c : Char) : Char :=
  if 65 ≤ c.toNat ∧ c.toNat ≤ 90 then Char.ofNat (c.toNat + 32)
  else if c.toNat = 0x130 then 'i'
  else if c.toNat = 0x212A then 'k'
  else c

/-- Go `strings.ToUpper`. -/
def ToUpper (s : Str) : Str := s.map upperRune

/-- Go `strings.ToLower`. -/
def ToLower (s : Str) : Str := s.map lowerRune

/-- Go `strings.HasPrefix`. -/
def HasPrefix (s p : Str) : Bool := p.isPrefixOf s

/-- Go `strings.TrimPrefix`: `s` without the leading `p`, or `s` itself when
it does not start with `p`. -/
def TrimPrefix (s p : Str) : Str := if HasPrefix s p then s.drop p.length else s

/-- Go `strings.TrimSpace`: leading and trailing white space removed. -/
def TrimSpace (s : Str) : Str := ((s.dropWhile isSpace).reverse.dropWhile isSpace).reverse

/-- Go `strings.Contains`. -/
def Contains : Str → Str → Bool
  | [], sub => sub.isPrefixOf []
  | c :: s, sub => sub.isPrefixOf (c :: s) || Contains s sub

/-- First occurrence of `sep` in a string (Go `strings.Index`), returned as the
text before it and the text after it. -/
def cut (sep : Str) : Str → Option (Str × Str)
  | [] => if sep.isPrefixOf [] then some ([], []) else none
  | c :: s =>
    if sep.isPrefixOf (c :: s) then some ([], (c :: s).drop sep.length)
    else match cut sep s with
      | none => none
      | some (a, b) => some (c :: a, b)

/-- Loop of Go `genSplit`: at most `n` cuts at successive first occurrences
of `sep`; the rest of the string is the last piece. -/
def splitLoop (sep : Str) : Nat → Str → List Str
  | 0, s => [s]
  | n + 1, s =>
    match cut sep s with
    | none => [s]
    | some (a, b) => a :: splitLoop sep n b

/-- Go `strings.Split` for a non-empty separator. Go bounds the loop by
`Count(s, sep)`, the number of non-overlapping occurrences, which is at most
the length of `s`; the loop stops anyway at the first failed `Index`. -/
def Split (s sep : Str) : List Str := splitLoop sep s.length s

/-- Go `strings.Join`. -/
def Join : List Str → Str → Str
  | [], _ => []
  | [a], _ => a
  | a :: b :: rest, sep => a ++ sep ++ Join (b :: rest) sep

/-- The line terminator `\r\n`. -/
def crlf : Str := ['\r', '\n']

/-- The blank line `\r\n\r\n` that separates headers from body. -/
def blankLine : Str := ['\r', '\n', '\r', '\n']

/-! ## The message store (`server/email.go`) -/

/-- Instants of `time.Time`; `0` is the zero instant. -/
abbrev Time := Nat

/-- Go `Email`. -/
structure Email where
  ID : Str
  From : Str
  To : List Str
  Subject : Str
  Body : Str
  HTML : Bool
  Timestamp : Time
  deriving DecidableEq, Repr

/-- Go `EmailServer`: the collection and the identifier counter (the ports,
the mutex and the listener handle play no part in the store operations). The
counter is a Go `int`; it starts at 1 and grows by one per stored message, and
is modelled without wrap-around. -/
structure EmailServer where
  emails : List Email
  smtpPort : Int
  httpPort : Int
  idCounter : Int
  deriving DecidableEq, Repr

/-- Go `NewEmailServer`. -/
def NewEmailServer (smtpPort httpPort : Int) : EmailServer :=
  { emails := [], smtpPort := smtpPort, httpPort := httpPort, idCounter := 1 }

/-- Go `formatID`: `fmt.Sprintf("%d", id)`. -/
def formatID (id : Int) : Str :=
  if id < 0 then '-' :: Nat.toDigits 10 id.natAbs else Nat.toDigits 10 id.toNat

/-- Go `AddEmail`; `now` is what `time.Now()` returns if it is consulted. -/
def AddEmail (s : EmailServer) (email : Email) (now : Time) : EmailServer :=
  let withID : Email × Int :=
    if email.ID = [] then ({ email with ID := formatID s.idCounter }, s.idCounter + 1)
    else (email, s.idCounter)
  let stamped : Email :=
    if withID.1.Timestamp = 0 then { withID.1 with Timestamp := now } else withID.1
  { s with emails := s.emails ++ [stamped], idCounter := withID.2 }

/-- Go `GetEmails`: a copy of the collection. -/
def GetEmails (s : EmailServer) : List Email := s.emails

/-- Go `GetEmailByID`: linear scan; the zero `Email` and `false` when absent. -/
def GetEmailByID (s : EmailServer) (id : Str) : Email × Bool :=
  match s.emails.find? (fun e => e.ID = id) with
  | some e => (e, true)
  | none => ({ ID := [], From := [], To := [], Subject := [], Body := [], HTML := false,
               Timestamp := 0 }, false)

/-- Go `ClearEmails`. -/
def ClearEmails (s : EmailServer) : EmailServer := { s with emails := [] }

/-! ## The session handler (`handleConnection` in `server/smtp.go`) -/

/-- Header scan of `handleConnection`: the loop over the header lines, updating
`subject` and `isHTML`. The slice `line[8:]` is taken after the first eight
runes were seen to be a letter-case variant of `subject:`, hence ASCII. -/
def scanHeaders : List Str → Str × Bool → Str × Bool
  | [], acc => acc
  | line :: rest, (subject, isHTML) =>
    let subject1 :=
      if HasPrefix (ToLower line) "subject:".toList then TrimSpace (line.drop 8) else subject
    let isHTML1 :=
      if Contains (ToLower line) "content-type: text/html".toList then true else isHTML
    scanHeaders rest (subject1, isHTML1)

/-- Extraction of subject, body and HTML flag from the accumulated data
(`content`), as done by `handleConnection` at the end of the data phase. The
result is `(subject, body, isHTML)`. -/
def parseData (content : Str) : Str × Str × Bool :=
  match Split content blankLine with
  | headers :: p :: ps =>
    let r := scanHeaders (Split headers crlf) ([], false)
    (r.1, Join (p :: ps) blankLine, r.2)
  | _ => ([], content, false)

/-- Local state of one run of `handleConnection` (`sender` and `recipients`
are the Go variables `from` and `to`, `data` is the builder), together with the
store it writes to, the replies written so far and the number of clock
readings. -/
structure Conn where
  server : EmailServer
  sender : Str
  recipients : List Str
  data : Str
  out : List Str
  ticks : Nat
  deriving DecidableEq, Repr

/-- The `Email` built by `handleConnection` at the end of a data phase from
the pending sender and recipients and from the accumulated data: the block
from `content := data.String()` to the `Email{...}` literal. The ID is left
empty. -/
def newEmail (clock : Nat → Time) (c : Conn) : Email :=
  let p := parseData c.data
  { ID := [], From := c.sender, To := c.recipients, Subject := p.1, Body := p.2.1, HTML := p.2.2,
    Timestamp := clock c.ticks }

/-- Code of `handleConnection` after the inner loop: reply, build the `Email`,
hand it to `AddEmail` and reset the pending transaction. -/
def commit (clock : Nat → Time) (c : Conn) : Conn :=
  let email := newEmail clock c
  { server := AddEmail c.server email (clock (c.ticks + 1)),
    sender := [], recipients := [], data := [],
    out := c.out ++ ["250 Mail accepted\r\n".toList],
    ticks := if email.Timestamp = 0 then c.ticks + 2 else c.ticks + 1 }

/-- One data line appended to the buffer, a leading dot removed. -/
def appendData (c : Conn) (line : Str) : Conn :=
  let line1 := if HasPrefix line ['.'] then line.drop 1 else line
  { c with data := c.data ++ (line1 ++ crlf) }

mutual
/-- Outer loop of `handleConnection`: one command line per iteration. -/
def idle (clock : Nat → Time) (c : Conn) (lines : List Str) : Conn :=
  match lines with
  | [] => c
  | line :: rest =>
    let cmd := ToUpper line
    if HasPrefix cmd "MAIL FROM:".toList then
      idle clock { c with sender := TrimSpace (TrimPrefix line "MAIL FROM:".toList),
                          out := c.out ++ ["250 Sender OK\r\n".toList] } rest
    else if HasPrefix cmd "RCPT TO:".toList then
      idle clock
        { c with recipients := c.recipients ++ [TrimSpace (TrimPrefix line "RCPT TO:".toList)],
                 out := c.out ++ ["250 Recipient OK\r\n".toList] } rest
    else if cmd = "DATA".toList then
      inData clock
        { c with out := c.out ++ ["354 Start mail input; end with <CRLF>.<CRLF>\r\n".toList] }
        rest
    else if cmd = "QUIT".toList then
      { c with out := c.out ++ ["221 Bye\r\n".toList] }
    else if cmd = "HELO".toList ∨ cmd = "EHLO".toList then
      idle clock { c with out := c.out ++ ["250 Hello\r\n".toList] } rest
    else if cmd = "RSET".toList then
      idle clock { c with sender := [], recipients := [], data := [],
                          out := c.out ++ ["250 OK\r\n".toList] } rest
    else if cmd = "NOOP".toList then
      idle clock { c with out := c.out ++ ["250 OK\r\n".toList] } rest
    else
      idle clock { c with out := c.out ++ ["500 Unknown command\r\n".toList] } rest
termination_by structural lines
/-- Inner loop of `handleConnection` (the data phase) and the code after it.
The loop ends at a line that is exactly `.`, or when the scanner has no more
lines; in both cases the code after the loop runs, and the outer loop goes on
with the lines that remain. -/
def inData (clock : Nat → Time) (c : Conn) (lines : List Str) : Conn :=
  match lines with
  | [] => commit clock c
  | line :: rest =>
    if line = ['.'] then idle clock (commit clock c) rest
    else inData clock (appendData c line) rest
termination_by structural lines
end

/-- Go `handleConnection`, run on the store `s` with the input lines `lines`:
greeting, then the command loop. -/
def handleConnection (clock : Nat → Time) (s : EmailServer) (lines : List Str) : Conn :=
  idle clock
    { server := s, sender := [], recipients := [], data := [],
      out := ["220 localhost SMTP server ready\r\n".toList], ticks := 0 }
    lines

/-! ## Specification vocabulary -/

/-- Calls on the store. -/
inductive StoreOp where
  | add (email : Email) (now : Time)
  | clear
  deriving DecidableEq, Repr

/-- Effect of one call on the store. -/
def applyOp (s : EmailServer) : StoreOp → EmailServer
  | .add email now => AddEmail s email now
  | .clear => ClearEmails s

/-- Store reached from `s` by a sequence of calls, in order. -/
def runOps (s : EmailServer) (ops : List StoreOp) : EmailServer := ops.foldl applyOp s

/-- The call passes no identifier of its own: an `AddEmail` whose candidate has
an empty ID, or a `ClearEmails`. -/
def emptyID : StoreOp → Bool
  | .add email _ => email.ID.isEmpty
  | .clear => true

/-- Number of `AddEmail` calls in a sequence of calls. -/
def countAdds : List StoreOp → Nat
  | [] => 0
  | .add _ _ :: ops => countAdds ops + 1
  | .clear :: ops => countAdds ops

/-- Numeric value of a string of decimal digits, most significant first. -/
def decimalValue (s : Str) : Nat := s.foldl (fun a c => 10 * a + (c.toNat - 48)) 0

/-- Invariant of the store under calls with empty candidate identifiers: read
as numbers, the stored identifiers increase along the collection and stay
below the counter. -/
def storeOrdered (s : EmailServer) : Prop :=
  (s.emails.map (fun e => (decimalValue e.ID : Int))).Pairwise (fun a b => a < b) ∧
  (∀ e ∈ s.emails, (decimalValue e.ID : Int) < s.idCounter) ∧ 0 ≤ s.idCounter

/-- Dot-stuffing done by the sending peer: a line beginning with `.` gets one
more `.` in front. -/
def escape (line : Str) : Str := if HasPrefix line ['.'] then '.' :: line else line

/-- Text with no white space at either end. -/
def noOuterSpace (x : Str) : Prop :=
  (∀ c ∈ x.head?, isSpace c = false) ∧ (∀ c ∈ x.getLast?, isSpace c = false)

instance (x : Str) : Decidable (noOuterSpace x) := by
  unfold noOuterSpace
  infer_instance

/-- Text with no carriage return and no line feed. -/
def noCRLF (x : Str) : Prop := '\r' ∉ x ∧ '\n' ∉ x

instance (x : Str) : Decidable (noCRLF x) := by
  unfold noCRLF
  infer_instance

/-- Lines of a session sending one message with sender `s`, recipients `rs`,
subject `t` and body lines `bs`. -/
def roundTripLines (s : Str) (rs : List Str) (t : Str) (bs : List Str) : List Str :=
  ("MAIL FROM:".toList ++ s) ::
    (rs.map (fun r => "RCPT TO:".toList ++ r) ++
      ("DATA".toList :: ("Subject: ".toList ++ t) :: [] :: (bs ++ [['.'], "QUIT".toList])))

/-- `ls` are the CRLF-separated lines of `h`: joining them with `\r\n` gives
`h`, and no line contains `\r\n`. -/
def IsLines (h : Str) (ls : List Str) : Prop :=
  ls ≠ [] ∧ h = List.intercalate crlf ls ∧ ∀ l ∈ ls, ¬ crlf <:+: l

/-- A clock whose readings are 1, 2, 3, ... -/
def tickClock : Nat → Time := fun n => n + 1

/-- The message as `AddEmail` stores it in the state `s`: the candidate, with
the identifier and the time filled in when they are empty. -/
def stored (s : EmailServer) (email : Email) (now : Time) : Email :=
  { email with
    ID := if email.ID = [] then formatID s.idCounter else email.ID,
    Timestamp := if email.Timestamp = 0 then now else email.Timestamp }

/-- The stored message `st` comes from the call of `AddEmail` with the candidate
`call.1` at the clock reading `call.2`: all fields are those of the candidate,
except that an empty ID is replaced by a decimal number and a zero time by the
clock reading. -/
def storedFrom (st : Email) (call : Email × Time) : Prop :=
  st.From = call.1.From ∧ st.To = call.1.To ∧ st.Subject = call.1.Subject ∧
  st.Body = call.1.Body ∧ st.HTML = call.1.HTML ∧
  (call.1.ID ≠ [] → st.ID = call.1.ID) ∧ (call.1.ID = [] → ∃ k : Int, st.ID = formatID k) ∧
  (call.1.Timestamp ≠ 0 → st.Timestamp = call.1.Timestamp) ∧
  (call.1.Timestamp = 0 → st.Timestamp = call.2)

/-- The `AddEmail` calls with the given candidates and clock readings. -/
def addCalls (calls : List (Email × Time)) : List StoreOp :=
  calls.map (fun p => StoreOp.add p.1 p.2)

/-- The zero value of `Email`. -/
def zeroEmail : Email :=
  { ID := [], From := [], To := [], Subject := [], Body := [], HTML := false, Timestamp := 0 }

/-- Effect of a command line other than `DATA` and `QUIT` on the state of the
command loop: the branches of `handleConnection` that go on with the next
command. -/
def cmdStep (c : Conn) (line : Str) : Conn :=
  if HasPrefix (ToUpper line) "MAIL FROM:".toList then
    { c with sender := TrimSpace (TrimPrefix line "MAIL FROM:".toList),
             out := c.out ++ ["250 Sender OK\r\n".toList] }
  else if HasPrefix (ToUpper line) "RCPT TO:".toList then
    { c with recipients := c.recipients ++ [TrimSpace (TrimPrefix line "RCPT TO:".toList)],
             out := c.out ++ ["250 Recipient OK\r\n".toList] }
  else if ToUpper line = "HELO".toList ∨ ToUpper line = "EHLO".toList then
    { c with out := c.out ++ ["250 Hello\r\n".toList] }
  else if ToUpper line = "RSET".toList then
    { c with sender := [], recipients := [], data := [], out := c.out ++ ["250 OK\r\n".toList] }
  else if ToUpper line = "NOOP".toList then
    { c with out := c.out ++ ["250 OK\r\n".toList] }
  else
    { c with out := c.out ++ ["500 Unknown command\r\n".toList] }

/-- Phase of the handler: reading commands, reading data, or returned. -/
inductive Phase where
  | idle
  | inData
  | closed
  deriving DecidableEq, Repr

/-- Phase after one more input line. -/
def phaseStep : Phase → Str → Phase
  | .idle, line =>
    if ToUpper line = "DATA".toList then .inData
    else if ToUpper line = "QUIT".toList then .closed
    else .idle
  | .inData, line => if line = ['.'] then .idle else .inData
  | .closed, _ => .closed

/-- Phase of a session after the input lines `lines`. -/
def phaseAfter (lines : List Str) : Phase := lines.foldl phaseStep Phase.idle

/-- The handler continued in a given phase. -/
def run (clock : Nat → Time) : Phase → Conn → List Str → Conn
  | .idle, c, lines => idle clock c lines
  | .inData, c, lines => inData clock c lines
  | .closed, c, _ => c

/-- The state `c` with the replies `x` written before its own. -/
def withOut (x : List Str) (c : Conn) : Conn := { c with out := x ++ c.out }

/-- The pending transaction of a handler state: sender, recipients and data
buffer. -/
def pending (c : Conn) : Str × List Str × Str := (c.sender, c.recipients, c.data)

/-- What a message says, apart from its identifier and its time. -/
def content (e : Email) : Str × List Str × Str × Str × Bool :=
  (e.From, e.To, e.Subject, e.Body, e.HTML)

/-- An `AddEmail` call whose candidate has an empty ID. -/
def isStoreAssigned : StoreOp → Prop
  | .add email _ => email.ID = []
  | .clear => False

/-- What happens to a store: a protocol session with its clock and its input
lines, or a `ClearEmails` call. -/
inductive Event where
  | session (clock : Nat → Time) (lines : List Str)
  | clear

/-- Effect of an event on the store and on the history of the messages
committed since the start: a session adds to the history the messages it
appended to the collection. -/
def applyEvent (w : EmailServer × List Email) : Event → EmailServer × List Email
  | .session clock lines =>
    ((handleConnection clock w.1 lines).server,
      w.2 ++ (handleConnection clock w.1 lines).server.emails.drop w.1.emails.length)
  | .clear => (ClearEmails w.1, w.2)

/-- Store and history after a sequence of events. -/
def runEvents (w : EmailServer × List Email) (evs : List Event) : EmailServer × List Email :=
  evs.foldl applyEvent w

/-- Invariant of store and history under sessions and `ClearEmails` calls. -/
def historyOK (w : EmailServer × List Email) : Prop :=
  w.2.map Email.ID = (List.range w.2.length).map (fun i => Nat.toDigits 10 (i + 1)) ∧
  w.1.emails <:+ w.2 ∧ w.1.idCounter = (w.2.length : Int) + 1

/-- A `MAIL FROM:` or `RCPT TO:` line, the keyword in any letter case. -/
def isEnvelopeLine (line : Str) : Prop :=
  HasPrefix (ToUpper line) "MAIL FROM:".toList = true ∨
    HasPrefix (ToUpper line) "RCPT TO:".toList = true

instance (line : Str) : Decidable (isEnvelopeLine line) := by
  unfold isEnvelopeLine
  infer_instance

/-- Reply to a `MAIL FROM:` or `RCPT TO:` line. -/
def envelopeReply (line : Str) : Str :=
  if HasPrefix (ToUpper line) "MAIL FROM:".toList then "250 Sender OK\r\n".toList
  else "250 Recipient OK\r\n".toList

/-- The line matches one of the branches of the command loop. -/
def recognised (line : Str) : Bool :=
  HasPrefix (ToUpper line) "MAIL FROM:".toList || HasPrefix (ToUpper line) "RCPT TO:".toList ||
  ToUpper line == "DATA".toList || ToUpper line == "QUIT".toList ||
  ToUpper line == "HELO".toList || ToUpper line == "EHLO".toList ||
  ToUpper line == "RSET".toList || ToUpper line == "NOOP".toList

/-- Go slice expression `s[n:]`, where `n` counts bytes of the UTF-8 encoding.
The result is `none` when `n` is beyond the end of the string, where Go panics,
and also when the cut would fall inside the encoding of a rune. -/
def sliceFrom : Str → Nat → Option Str
  | s, 0 => some s
  | [], _ + 1 => none
  | c :: s, n + 1 => if c.utf8Size ≤ n + 1 then sliceFrom s (n + 1 - c.utf8Size) else none

/-- The step `appendData` with the slice `line[1:]` checked. -/
def appendDataChecked (c : Conn) (line : Str) : Option Conn :=
  if HasPrefix line ['.'] then
    (sliceFrom line 1).map (fun line1 => { c with data := c.data ++ (line1 ++ crlf) })
  else some { c with data := c.data ++ (line ++ crlf) }

/-- The loop `scanHeaders` with the slice `line[8:]` checked. -/
def scanHeadersChecked : List Str → Str × Bool → Option (Str × Bool)
  | [], acc => some acc
  | line :: rest, (subject, isHTML) =>
    let subject1 : Option Str :=
      if HasPrefix (ToLower line) "subject:".toList then (sliceFrom line 8).map TrimSpace
      else some subject
    let isHTML1 :=
      if Contains (ToLower line) "content-type: text/html".toList then true else isHTML
    subject1.bind (fun s1 => scanHeadersChecked rest (s1, isHTML1))

/-- Length in bytes of the UTF-8 encoding of a string (Go `len`). -/
def byteLength (s : Str) : Nat := (s.map Char.utf8Size).sum

/-! ## Lemmas -/

/-! ### Decimal strings -/

theorem digitChar_val (k : Nat) (h : k < 10) : (Nat.digitChar k).toNat - 48 = k := by
  interval_cases k <;> rfl

theorem foldl_toDigitsCore (f : Nat) : ∀ (n : Nat) (acc : List Char), n < f →
    (Nat.toDigitsCore 10 f n acc).foldl (fun a c => 10 * a + (c.toNat - 48)) 0 =
      acc.foldl (fun a c => 10 * a + (c.toNat - 48)) n := by
  induction f with
  | zero => intro n acc h; omega
  | succ f ih =>
    intro n acc h
    simp only [Nat.toDigitsCore]
    split
    · next h0 =>
      have hn : n % 10 = n := by omega
      rw [hn, List.foldl_cons, digitChar_val n (by omega)]
      simp
    · next h0 =>
      rw [ih (n / 10) _ (by omega)]
      simp only [List.foldl_cons, digitChar_val (n % 10) (Nat.mod_lt _ (by norm_num))]
      congr 1
      omega

theorem decimalValue_toDigits (n : Nat) : decimalValue (Nat.toDigits 10 n) = n := by
  unfold decimalValue Nat.toDigits
  rw [foldl_toDigitsCore (n + 1) n [] (by omega)]
  rfl

theorem formatID_nonneg (n : Int) (h : 0 ≤ n) : formatID n = Nat.toDigits 10 n.toNat := by
  unfold formatID
  rw [if_neg (by omega)]

/-! ### The store -/

theorem AddEmail_emptyID (s : EmailServer) (email : Email) (now : Time) (h : email.ID = []) :
    AddEmail s email now =
      { s with
        emails := s.emails ++ [{ email with
          ID := formatID s.idCounter,
          Timestamp := if email.Timestamp = 0 then now else email.Timestamp }],
        idCounter := s.idCounter + 1 } := by
  unfold AddEmail
  simp only [h, if_true]
  by_cases ht : email.Timestamp = 0 <;> simp [ht]

theorem emptyID_add {email : Email} {now : Time} (h : emptyID (StoreOp.add email now) = true) :
    email.ID = [] := by
  simpa [emptyID, List.isEmpty_iff] using h

theorem runOps_append (s : EmailServer) (xs ys : List StoreOp) :
    runOps s (xs ++ ys) = runOps (runOps s xs) ys := by
  simp [runOps, List.foldl_append]

theorem runOps_idCounter (ops : List StoreOp) : ∀ (s : EmailServer),
    (∀ op ∈ ops, emptyID op = true) → (runOps s ops).idCounter = s.idCounter + countAdds ops := by
  induction ops with
  | nil => intro s _; simp [runOps, countAdds]
  | cons op ops ih =>
    intro s h
    have hop := h op (List.mem_cons_self _ _)
    have hrest : ∀ o ∈ ops, emptyID o = true := fun o ho => h o (List.mem_cons_of_mem _ ho)
    have step : runOps s (op :: ops) = runOps (applyOp s op) ops := rfl
    rw [step, ih _ hrest]
    cases op with
    | add email now =>
      simp only [applyOp, AddEmail_emptyID s email now (emptyID_add hop), countAdds]
      push_cast
      ring
    | clear => simp [applyOp, ClearEmails, countAdds]

theorem storeOrdered_applyOp (s : EmailServer) (op : StoreOp) (h : storeOrdered s)
    (hop : emptyID op = true) : storeOrdered (applyOp s op) := by
  obtain ⟨h1, h2, h3⟩ := h
  cases op with
  | add email now =>
    simp only [applyOp, AddEmail_emptyID s email now (emptyID_add hop)]
    have hv : (decimalValue (formatID s.idCounter) : Int) = s.idCounter := by
      rw [formatID_nonneg _ h3, decimalValue_toDigits]
      omega
    refine ⟨?_, ?_, by simp only; omega⟩
    · simp only [List.map_append, List.map_cons, List.map_nil]
      rw [List.pairwise_append]
      refine ⟨h1, List.pairwise_singleton _ _, ?_⟩
      intro a ha b hb
      simp only [List.mem_singleton] at hb
      obtain ⟨e, he, rfl⟩ := List.mem_map.1 ha
      rw [hb, hv]
      exact h2 e he
    · intro e he
      simp only [List.mem_append, List.mem_singleton] at he
      rcases he with he | he
      · have := h2 e he
        simp only
        omega
      · rw [he]
        simp only [hv]
        omega
  | clear =>
    exact ⟨by simp [applyOp, ClearEmails], by simp [applyOp, ClearEmails], h3⟩

theorem storeOrdered_runOps (ops : List StoreOp) : ∀ (s : EmailServer), storeOrdered s →
    (∀ op ∈ ops, emptyID op = true) → storeOrdered (runOps s ops) := by
  induction ops with
  | nil => intro s h _; exact h
  | cons op ops ih =>
    intro s h hops
    exact ih _ (storeOrdered_applyOp s op h (hops op (List.mem_cons_self _ _)))
      (fun o ho => hops o (List.mem_cons_of_mem _ ho))

theorem storeOrdered_new (smtpPort httpPort : Int) :
    storeOrdered (NewEmailServer smtpPort httpPort) := by
  simp [storeOrdered, NewEmailServer]

/-! ### Prefixes, case and white space -/

theorem HasPrefix_append (p x : Str) : HasPrefix (p ++ x) p = true := by
  unfold HasPrefix
  rw [List.isPrefixOf_iff_prefix]
  exact List.prefix_append p x

theorem TrimPrefix_append (p x : Str) : TrimPrefix (p ++ x) p = x := by
  unfold TrimPrefix
  rw [HasPrefix_append, if_pos rfl, List.drop_left]

theorem ToUpper_append (a b : Str) : ToUpper (a ++ b) = ToUpper a ++ ToUpper b := by
  simp [ToUpper]

theorem ToLower_append (a b : Str) : ToLower (a ++ b) = ToLower a ++ ToLower b := by
  simp [ToLower]

theorem HasPrefix_upper_keyword (kw x : Str) (hk : ToUpper kw = kw) :
    HasPrefix (ToUpper (kw ++ x)) kw = true := by
  rw [ToUpper_append, hk, HasPrefix_append]

theorem HasPrefix_cons_ne (a b : Char) (x p : Str) (h : a ≠ b) :
    HasPrefix (a :: x) (b :: p) = false := by
  have h2 : ¬ b = a := fun e => h e.symm
  simp [HasPrefix, List.isPrefixOf, h2]

theorem TrimSpace_eq_self (x : Str) (h : noOuterSpace x) : TrimSpace x = x := by
  obtain ⟨h1, h2⟩ := h
  have e1 : x.dropWhile isSpace = x := by
    cases x with
    | nil => rfl
    | cons a l => simp [List.dropWhile_cons, h1 a rfl]
  have e2 : x.rdropWhile isSpace = x := by
    rw [List.rdropWhile_eq_self_iff]
    intro hl
    have := h2 (x.getLast hl) (List.getLast?_eq_getLast _ hl)
    simp [this]
  unfold TrimSpace
  rw [e1]
  exact e2

theorem TrimSpace_cons_space (a : Char) (x : Str) (h : isSpace a = true) :
    TrimSpace (a :: x) = TrimSpace x := by
  simp [TrimSpace, List.dropWhile_cons, h]

theorem Contains_iff_occurs (sub : Str) : ∀ s : Str, Contains s sub = true ↔ sub <:+: s
  | [] => by
    rw [Contains, List.isPrefixOf_iff_prefix]
    constructor
    · exact fun h => h.isInfix
    · intro h
      rw [List.eq_nil_of_infix_nil h]
  | c :: s => by
    rw [Contains, Bool.or_eq_true, List.isPrefixOf_iff_prefix, Contains_iff_occurs sub s,
      List.infix_cons_iff]

theorem Contains_subject_append (x p : Str) :
    Contains ("subject: ".toList ++ x) ('c' :: 'o' :: p) = Contains x ('c' :: 'o' :: p) := by
  show Contains ('s' :: 'u' :: 'b' :: 'j' :: 'e' :: 'c' :: 't' :: ':' :: ' ' :: x)
    ('c' :: 'o' :: p) = _
  simp [Contains, List.isPrefixOf]

/-! ### First occurrence of a separator -/

theorem cut_sound (sep : Str) : ∀ (s a b : Str), cut sep s = some (a, b) → s = a ++ sep ++ b := by
  intro s
  induction s with
  | nil =>
    intro a b h
    cases sep with
    | nil => simp [cut] at h; simp [h]
    | cons d sep => simp [cut] at h
  | cons c s ih =>
    intro a b h
    rw [cut] at h
    split at h
    · next hp =>
      simp only [Option.some.injEq, Prod.mk.injEq] at h
      obtain ⟨rfl, rfl⟩ := h
      rw [List.isPrefixOf_iff_prefix] at hp
      obtain ⟨t, ht⟩ := hp
      rw [← ht]
      simp
    · next hp =>
      split at h
      · simp at h
      · next a' b' hc =>
        simp only [Option.some.injEq, Prod.mk.injEq] at h
        obtain ⟨rfl, rfl⟩ := h
        rw [ih a' b' hc]
        simp

theorem cut_cons_at_start (sep : Str) (x : Char) (s : Str)
    (h : sep.isPrefixOf (x :: s) = true) :
    cut sep (x :: s) = some ([], (x :: s).drop sep.length) := by
  rw [cut, if_pos h]

theorem cut_cons_later (sep : Str) (x : Char) (s : Str)
    (h : ¬ sep.isPrefixOf (x :: s) = true) :
    cut sep (x :: s) = (cut sep s).map (fun p => (x :: p.1, p.2)) := by
  rw [cut, if_neg h]
  cases cut sep s with
  | none => rfl
  | some p => rfl

theorem dropLast_starts (sep h b : Str) (hne : sep ≠ []) :
    h ++ sep.dropLast <+: h ++ sep ++ b := by
  refine ⟨sep.getLast hne :: b, ?_⟩
  have := List.dropLast_append_getLast hne
  calc h ++ sep.dropLast ++ sep.getLast hne :: b
      = h ++ (sep.dropLast ++ [sep.getLast hne]) ++ b := by simp
    _ = h ++ sep ++ b := by rw [this]

theorem cut_first (sep h b : Str) (hne : sep ≠ [])
    (hfirst : ¬ sep <:+: h ++ sep.dropLast) : cut sep (h ++ sep ++ b) = some (h, b) := by
  induction h with
  | nil =>
    cases sep with
    | nil => exact absurd rfl hne
    | cons d sep =>
      have hp : (d :: sep).isPrefixOf (d :: (sep ++ b)) = true := by
        rw [List.isPrefixOf_iff_prefix]
        exact ⟨b, by simp⟩
      simp only [List.nil_append, List.cons_append]
      rw [cut_cons_at_start _ _ _ hp]
      simp
  | cons x h ih =>
    have hnp : ¬ sep.isPrefixOf (x :: (h ++ sep ++ b)) = true := by
      intro hp
      rw [List.isPrefixOf_iff_prefix] at hp
      apply hfirst
      have h2 : (x :: h) ++ sep.dropLast <+: x :: (h ++ sep ++ b) :=
        dropLast_starts sep (x :: h) b hne
      have hlen : sep.length ≤ ((x :: h) ++ sep.dropLast).length := by
        simp only [List.cons_append, List.length_cons, List.length_append, List.length_dropLast]
        have : 0 < sep.length := List.length_pos.2 hne
        omega
      exact (List.prefix_of_prefix_length_le hp h2 hlen).isInfix
    have ih2 := ih (fun hi => hfirst (by
      rw [List.cons_append]
      exact List.infix_cons hi))
    simp only [List.cons_append]
    rw [cut_cons_later _ _ _ hnp, ih2]
    rfl

theorem cut_some_first (sep : Str) (hne : sep ≠ []) : ∀ (s h b : Str),
    cut sep s = some (h, b) → ¬ sep <:+: h ++ sep.dropLast := by
  intro s
  induction s with
  | nil =>
    intro h b hc
    cases sep with
    | nil => exact absurd rfl hne
    | cons d sep => simp [cut] at hc
  | cons x s ih =>
    intro h b hc
    by_cases hp : sep.isPrefixOf (x :: s) = true
    · rw [cut_cons_at_start _ _ _ hp] at hc
      simp only [Option.some.injEq, Prod.mk.injEq] at hc
      obtain ⟨rfl, -⟩ := hc
      intro hi
      have := hi.length_le
      simp only [List.nil_append, List.length_dropLast] at this
      have : 0 < sep.length := List.length_pos.2 hne
      omega
    · rw [cut_cons_later _ _ _ hp] at hc
      cases hcs : cut sep s with
      | none => rw [hcs] at hc; simp at hc
      | some p =>
        obtain ⟨a', b'⟩ := p
        rw [hcs] at hc
        simp only [Option.map_some', Option.some.injEq, Prod.mk.injEq] at hc
        obtain ⟨rfl, rfl⟩ := hc
        intro hi
        rw [List.cons_append, List.infix_cons_iff] at hi
        rcases hi with hi | hi
        · apply hp
          rw [List.isPrefixOf_iff_prefix]
          refine hi.trans ?_
          rw [cut_sound sep s a' b' hcs]
          exact dropLast_starts sep (x :: a') b' hne
        · exact ih a' b' hcs hi

theorem cut_eq_none_iff (sep s : Str) : cut sep s = none ↔ ¬ sep <:+: s := by
  constructor
  · intro h hi
    induction s with
    | nil =>
      have : sep = [] := List.eq_nil_of_infix_nil hi
      subst this
      simp [cut] at h
    | cons x s ih =>
      by_cases hp : sep.isPrefixOf (x :: s) = true
      · rw [cut_cons_at_start _ _ _ hp] at h
        simp at h
      · rw [cut_cons_later _ _ _ hp] at h
        rw [List.infix_cons_iff] at hi
        rcases hi with hi | hi
        · exact hp (List.isPrefixOf_iff_prefix.2 hi)
        · apply ih _ hi
          simpa using h
  · intro h
    cases hc : cut sep s with
    | none => rfl
    | some p =>
      obtain ⟨a, b⟩ := p
      exfalso
      apply h
      rw [cut_sound sep s a b hc]
      exact ⟨a, b, rfl⟩

theorem cut_of_head_not_mem (d : Char) (sep h b : Str) (hd : d ∉ h) :
    cut (d :: sep) (h ++ (d :: sep) ++ b) = some (h, b) := by
  induction h with
  | nil =>
    have hp : (d :: sep).isPrefixOf (d :: (sep ++ b)) = true := by
      rw [List.isPrefixOf_iff_prefix]
      exact ⟨b, by simp⟩
    simp only [List.nil_append, List.cons_append, cut, hp, if_true]
    simp
  | cons x h ih =>
    have hx : ¬ d = x := fun e => hd (by simp [e])
    have hp : (d :: sep).isPrefixOf (x :: (h ++ (d :: sep) ++ b)) = false := by
      simp [List.isPrefixOf, hx]
    have ih2 := ih (fun hm => hd (List.mem_cons_of_mem _ hm))
    simp only [List.cons_append] at ih2 ⊢
    rw [cut]
    simp only [hp, ih2]
    simp

theorem cut_none_of_head_not_mem (d : Char) (sep s : Str) (hd : d ∉ s) :
    cut (d :: sep) s = none := by
  induction s with
  | nil => simp [cut]
  | cons x s ih =>
    have hx : ¬ d = x := fun e => hd (by simp [e])
    have hp : (d :: sep).isPrefixOf (x :: s) = false := by
      simp [List.isPrefixOf, hx]
    rw [cut]
    simp only [hp, ih (fun hm => hd (List.mem_cons_of_mem _ hm))]
    simp

/-! ### Splitting and joining -/

theorem splitLoop_ne_nil (sep : Str) (n : Nat) (s : Str) : splitLoop sep n s ≠ [] := by
  cases n with
  | zero => simp [splitLoop]
  | succ n =>
    rw [splitLoop]
    split <;> simp

theorem Join_cons (a : Str) (l : List Str) (sep : Str) (hl : l ≠ []) :
    Join (a :: l) sep = a ++ sep ++ Join l sep := by
  cases l with
  | nil => exact absurd rfl hl
  | cons b rest => rw [Join]

theorem Join_splitLoop (sep : Str) (n : Nat) : ∀ s : Str, Join (splitLoop sep n s) sep = s := by
  induction n with
  | zero => intro s; simp [splitLoop, Join]
  | succ n ih =>
    intro s
    rw [splitLoop]
    split
    · simp [Join]
    · next a b hc =>
      rw [Join_cons _ _ _ (splitLoop_ne_nil sep n b), ih b, cut_sound sep s a b hc]

theorem Split_of_cut_none (sep s : Str) (h : cut sep s = none) : Split s sep = [s] := by
  unfold Split
  cases hs : s.length with
  | zero => simp [splitLoop]
  | succ n => rw [splitLoop, h]

theorem Split_of_cut_some (d : Char) (sep s a b : Str) (h : cut (d :: sep) s = some (a, b)) :
    Split s (d :: sep) = a :: splitLoop (d :: sep) (s.length - 1) b := by
  unfold Split
  cases hs : s.length with
  | zero =>
    have := cut_sound _ _ _ _ h
    rw [this] at hs
    simp at hs
  | succ n =>
    rw [splitLoop, h]
    simp

theorem intercalate_cons_cons (sep a b : Str) (rest : List Str) :
    List.intercalate sep (a :: b :: rest) = a ++ sep ++ List.intercalate sep (b :: rest) := by
  simp [List.intercalate, List.intersperse]

theorem Join_eq_intercalate (sep : Str) : ∀ l : List Str, Join l sep = List.intercalate sep l
  | [] => by simp [Join, List.intercalate]
  | [a] => by simp [Join, List.intercalate]
  | a :: b :: rest => by
    rw [Join, intercalate_cons_cons, Join_eq_intercalate sep (b :: rest)]

theorem not_crlf_infix_append_cr (l : Str) (h : ¬ crlf <:+: l) :
    ¬ crlf <:+: l ++ crlf.dropLast := by
  rintro ⟨s, t, hst⟩
  rcases List.eq_nil_or_concat t with rfl | ⟨t', y, rfl⟩
  · have := congrArg List.getLast? hst
    simp [crlf] at this
  · apply h
    refine ⟨s, t', ?_⟩
    have h2 : (s ++ crlf ++ t') ++ [y] = l ++ ['\r'] := by
      simpa [crlf, List.append_assoc] using hst
    exact (List.append_inj' h2 rfl).1

theorem splitLoop_isLines (ls : List Str) : ∀ (n : Nat), ls ≠ [] →
    (∀ l ∈ ls, ¬ crlf <:+: l) → (List.intercalate crlf ls).length ≤ n →
    splitLoop crlf n (List.intercalate crlf ls) = ls := by
  induction ls with
  | nil => intro n h; exact absurd rfl h
  | cons l rest ih =>
    intro n _ hfree hn
    cases rest with
    | nil =>
      have hl : List.intercalate crlf [l] = l := by simp [List.intercalate]
      have hc : cut crlf l = none := (cut_eq_none_iff _ _).2 (hfree l (List.mem_cons_self _ _))
      rw [hl]
      cases n with
      | zero => rfl
      | succ n => rw [splitLoop, hc]
    | cons l' rest =>
      rw [intercalate_cons_cons] at hn ⊢
      have hc : cut crlf (l ++ crlf ++ List.intercalate crlf (l' :: rest)) =
          some (l, List.intercalate crlf (l' :: rest)) :=
        cut_first crlf l _ (by simp [crlf])
          (not_crlf_infix_append_cr l (hfree l (List.mem_cons_self _ _)))
      cases n with
      | zero => simp [crlf] at hn
      | succ n =>
        rw [splitLoop, hc]
        simp only [List.cons.injEq, true_and]
        apply ih n (by simp) (fun x hx => hfree x (List.mem_cons_of_mem _ hx))
        have hlen : crlf.length = 2 := rfl
        simp only [List.length_append, hlen] at hn
        omega

/-- The lines of a text are those found by `Split`. -/
theorem Split_of_isLines (h : Str) (ls : List Str) (hl : IsLines h ls) : Split h crlf = ls := by
  obtain ⟨h1, h2, h3⟩ := hl
  unfold Split
  rw [h2]
  exact splitLoop_isLines ls _ h1 h3 (le_refl _)

theorem splitLoop_free (sep : Str) (hne : sep ≠ []) (n : Nat) : ∀ (s : Str), s.length ≤ n →
    ∀ l ∈ splitLoop sep n s, ¬ sep <:+: l := by
  induction n with
  | zero =>
    intro s hs l hl
    have : s = [] := List.length_eq_zero.1 (Nat.le_zero.1 hs)
    subst this
    simp only [splitLoop, List.mem_singleton] at hl
    subst hl
    intro hi
    exact hne (List.eq_nil_of_infix_nil hi)
  | succ n ih =>
    intro s hs l hl
    rw [splitLoop] at hl
    cases hc : cut sep s with
    | none =>
      rw [hc] at hl
      simp only [List.mem_singleton] at hl
      subst hl
      exact (cut_eq_none_iff _ _).1 hc
    | some p =>
      obtain ⟨a, b⟩ := p
      rw [hc] at hl
      simp only [List.mem_cons] at hl
      have hs2 := cut_sound sep s a b hc
      rcases hl with rfl | hl
      · intro hi
        exact cut_some_first sep hne s l b hc (hi.trans (List.infix_append' [] l sep.dropLast))
      · apply ih b _ l hl
        rw [hs2] at hs
        simp only [List.length_append] at hs
        have : 0 < sep.length := List.length_pos.2 hne
        omega

theorem Split_isLines (h : Str) : IsLines h (Split h crlf) := by
  refine ⟨splitLoop_ne_nil _ _ _, ?_, splitLoop_free crlf (by simp [crlf]) _ h (le_refl _)⟩
  rw [← Join_eq_intercalate]
  exact (Join_splitLoop crlf h.length h).symm

/-! ### Header scan and parsing of the data -/

theorem scanHeaders_append (a b : List Str) : ∀ acc : Str × Bool,
    scanHeaders (a ++ b) acc = scanHeaders b (scanHeaders a acc) := by
  induction a with
  | nil => intro acc; rfl
  | cons l a ih =>
    intro acc
    obtain ⟨s, f⟩ := acc
    simp only [List.cons_append, scanHeaders]
    exact ih _

theorem scanHeaders_snd (ls : List Str) : ∀ acc : Str × Bool,
    (scanHeaders ls acc).2 =
      (acc.2 || ls.any (fun l => Contains (ToLower l) "content-type: text/html".toList)) := by
  induction ls with
  | nil => intro acc; simp [scanHeaders]
  | cons l ls ih =>
    intro acc
    obtain ⟨s, f⟩ := acc
    simp only [scanHeaders, ih, List.any_cons]
    cases Contains (ToLower l) "content-type: text/html".toList <;> cases f <;> simp

theorem scanHeaders_fst_of_no_match (ls : List Str)
    (h : ∀ l ∈ ls, HasPrefix (ToLower l) "subject:".toList = false) : ∀ acc : Str × Bool,
    (scanHeaders ls acc).1 = acc.1 := by
  induction ls with
  | nil => intro acc; rfl
  | cons l ls ih =>
    intro acc
    obtain ⟨s, f⟩ := acc
    simp only [scanHeaders, h l (List.mem_cons_self _ _)]
    rw [ih (fun x hx => h x (List.mem_cons_of_mem _ hx))]
    simp

theorem scanHeaders_fst_of_last_match (pre post : List Str) (line : Str)
    (hline : HasPrefix (ToLower line) "subject:".toList = true)
    (hpost : ∀ l ∈ post, HasPrefix (ToLower l) "subject:".toList = false) (acc : Str × Bool) :
    (scanHeaders (pre ++ line :: post) acc).1 = TrimSpace (line.drop 8) := by
  rw [scanHeaders_append]
  obtain ⟨s, f⟩ := scanHeaders pre acc
  simp only [scanHeaders, hline, if_true]
  rw [scanHeaders_fst_of_no_match post hpost]

theorem parseData_of_cut_some (c h b : Str) (hc : cut blankLine c = some (h, b)) :
    parseData c =
      ((scanHeaders (Split h crlf) ([], false)).1, b, (scanHeaders (Split h crlf) ([], false)).2) := by
  unfold parseData
  have hs : Split c blankLine = h :: splitLoop blankLine (c.length - 1) b :=
    Split_of_cut_some _ _ _ _ _ hc
  have hj := Join_splitLoop blankLine (c.length - 1) b
  rw [hs]
  cases hl : splitLoop blankLine (c.length - 1) b with
  | nil => exact absurd hl (splitLoop_ne_nil _ _ _)
  | cons p ps =>
    rw [hl] at hj
    simp only [hj]

theorem parseData_of_cut_none (c : Str) (hc : cut blankLine c = none) :
    parseData c = ([], c, false) := by
  unfold parseData
  rw [Split_of_cut_none _ _ hc]

theorem parseData_of_first (c h b : Str) (hc : c = h ++ blankLine ++ b)
    (hfirst : ¬ blankLine <:+: h ++ blankLine.dropLast) (ls : List Str) (hls : IsLines h ls) :
    parseData c = ((scanHeaders ls ([], false)).1, b, (scanHeaders ls ([], false)).2) := by
  rw [hc, parseData_of_cut_some _ h b (cut_first blankLine h b (by simp [blankLine]) hfirst),
    Split_of_isLines h ls hls]

theorem scanHeaders_subject_line (t : Str) (h1 : noOuterSpace t)
    (h2 : Contains (ToLower t) "content-type: text/html".toList = false) :
    scanHeaders ["Subject: ".toList ++ t] ([], false) = (t, false) := by
  have e1 : HasPrefix (ToLower ("Subject: ".toList ++ t)) "subject:".toList = true := by
    rw [ToLower_append]
    exact HasPrefix_append "subject:".toList (' ' :: ToLower t)
  have e2 : ("Subject: ".toList ++ t).drop 8 = ' ' :: t := rfl
  have e3 : Contains (ToLower ("Subject: ".toList ++ t)) "content-type: text/html".toList
      = false := by
    rw [ToLower_append, ← h2]
    exact Contains_subject_append (ToLower t) "ntent-type: text/html".toList
  simp only [scanHeaders, e1, e2, e3, if_true, TrimSpace_cons_space ' ' t rfl,
    TrimSpace_eq_self t h1]
  simp

theorem parseData_round_trip (t body : Str) (h1 : noOuterSpace t) (h0 : noCRLF t)
    (h2 : Contains (ToLower t) "content-type: text/html".toList = false) :
    parseData (("Subject: ".toList ++ t) ++ blankLine ++ body) = (t, body, false) := by
  have hr : '\r' ∉ "Subject: ".toList ++ t := by
    intro hm
    rcases List.mem_append.1 hm with hm | hm
    · revert hm; decide
    · exact h0.1 hm
  have hc : cut blankLine (("Subject: ".toList ++ t) ++ blankLine ++ body) =
      some ("Subject: ".toList ++ t, body) := cut_of_head_not_mem '\r' _ _ body hr
  have hn : cut crlf ("Subject: ".toList ++ t) = none := cut_none_of_head_not_mem '\r' _ _ hr
  rw [parseData_of_cut_some _ _ _ hc, Split_of_cut_none _ _ hn,
    scanHeaders_subject_line t h1 h2]

/-! ### The command loop and the data phase -/

theorem idle_nil (clock : Nat → Time) (c : Conn) : idle clock c [] = c := by
  rw [idle]

theorem inData_nil (clock : Nat → Time) (c : Conn) : inData clock c [] = commit clock c := by
  rw [inData]

theorem inData_cons (clock : Nat → Time) (c : Conn) (line : Str) (rest : List Str) :
    inData clock c (line :: rest) =
      if line = ['.'] then idle clock (commit clock c) rest
      else inData clock (appendData c line) rest := by
  rw [inData]

theorem idle_data (clock : Nat → Time) (c : Conn) (rest : List Str) :
    idle clock c ("DATA".toList :: rest) =
      inData clock
        { c with out := c.out ++ ["354 Start mail input; end with <CRLF>.<CRLF>\r\n".toList] }
        rest := by
  rw [idle]
  rfl

theorem idle_quit (clock : Nat → Time) (c : Conn) (rest : List Str) :
    idle clock c ("QUIT".toList :: rest) = { c with out := c.out ++ ["221 Bye\r\n".toList] } := by
  rw [idle]
  rfl

theorem idle_mailFrom (clock : Nat → Time) (c : Conn) (line : Str) (rest : List Str)
    (h : HasPrefix (ToUpper line) "MAIL FROM:".toList = true) :
    idle clock c (line :: rest) =
      idle clock { c with sender := TrimSpace (TrimPrefix line "MAIL FROM:".toList),
                          out := c.out ++ ["250 Sender OK\r\n".toList] } rest := by
  rw [idle]
  simp only [h, if_true]

theorem idle_rcptTo (clock : Nat → Time) (c : Conn) (line : Str) (rest : List Str)
    (h1 : HasPrefix (ToUpper line) "MAIL FROM:".toList = false)
    (h2 : HasPrefix (ToUpper line) "RCPT TO:".toList = true) :
    idle clock c (line :: rest) =
      idle clock { c with recipients := c.recipients ++ [TrimSpace (TrimPrefix line "RCPT TO:".toList)],
                          out := c.out ++ ["250 Recipient OK\r\n".toList] } rest := by
  rw [idle]
  simp only [h1, h2, if_true]
  simp

theorem idle_rcptTo_list (clock : Nat → Time) (rs : List Str) (hrs : ∀ r ∈ rs, noOuterSpace r) :
    ∀ (c : Conn) (rest : List Str),
      idle clock c (rs.map (fun r => "RCPT TO:".toList ++ r) ++ rest) =
        idle clock { c with recipients := c.recipients ++ rs,
                            out := c.out ++ rs.map (fun _ => "250 Recipient OK\r\n".toList) }
          rest := by
  induction rs with
  | nil => intro c rest; simp
  | cons r rs ih =>
    intro c rest
    have h1 : HasPrefix (ToUpper ("RCPT TO:".toList ++ r)) "MAIL FROM:".toList = false := by
      rw [ToUpper_append]
      exact HasPrefix_cons_ne 'R' 'M' _ _ (by decide)
    have h2 := HasPrefix_upper_keyword "RCPT TO:".toList r rfl
    simp only [List.map_cons, List.cons_append]
    rw [idle_rcptTo clock c _ _ h1 h2, ih (fun x hx => hrs x (List.mem_cons_of_mem _ hx)),
      TrimPrefix_append, TrimSpace_eq_self r (hrs r (List.mem_cons_self _ _))]
    simp [List.append_assoc]

theorem escape_ne_dot (l : Str) : escape l ≠ ['.'] := by
  cases l with
  | nil => simp [escape, HasPrefix]
  | cons a l =>
    rcases eq_or_ne a '.' with ha | ha
    · subst ha; simp [escape, HasPrefix]
    · have ha2 : ¬ '.' = a := fun h => ha h.symm
      simp [escape, HasPrefix, ha, ha2]

theorem unescape_escape (l : Str) :
    (if HasPrefix (escape l) ['.'] then (escape l).drop 1 else escape l) = l := by
  cases l with
  | nil => simp [escape, HasPrefix]
  | cons a l =>
    rcases eq_or_ne a '.' with ha | ha
    · subst ha; simp [escape, HasPrefix]
    · have ha2 : ¬ '.' = a := fun h => ha h.symm
      simp [escape, HasPrefix, ha2]

theorem escape_eq_self (l : Str) (h : HasPrefix l ['.'] = false) : escape l = l := by
  simp [escape, h]

theorem map_escape_eq_self (ls : List Str) (h : ∀ l ∈ ls, HasPrefix l ['.'] = false) :
    ls.map escape = ls := by
  induction ls with
  | nil => rfl
  | cons l ls ih =>
    rw [List.map_cons, escape_eq_self l (h l (List.mem_cons_self _ _)),
      ih (fun x hx => h x (List.mem_cons_of_mem _ hx))]

theorem inData_escaped (clock : Nat → Time) (originals : List Str) :
    ∀ (c : Conn) (rest : List Str),
      inData clock c (originals.map escape ++ ['.'] :: rest) =
        idle clock
          (commit clock { c with data := c.data ++ (originals.map (fun l => l ++ crlf)).flatten })
          rest := by
  induction originals with
  | nil => intro c rest; simp [inData_cons]
  | cons l ls ih =>
    intro c rest
    simp only [List.map_cons, List.cons_append, inData_cons, if_neg (escape_ne_dot l)]
    rw [ih]
    simp only [appendData, unescape_escape, List.flatten_cons, List.append_assoc]

/-! ### Stored messages -/

theorem AddEmail_emails (s : EmailServer) (email : Email) (now : Time) :
    (AddEmail s email now).emails = s.emails ++ [stored s email now] := by
  unfold AddEmail stored
  by_cases h : email.ID = [] <;> by_cases ht : email.Timestamp = 0 <;> simp [h, ht]

theorem storedFrom_stored (s : EmailServer) (email : Email) (now : Time) :
    storedFrom (stored s email now) (email, now) := by
  unfold storedFrom stored
  refine ⟨rfl, rfl, rfl, rfl, rfl, ?_, ?_, ?_, ?_⟩
  · intro (h : email.ID ≠ []); simp [h]
  · intro (h : email.ID = []); exact ⟨s.idCounter, by simp [h]⟩
  · intro (h : email.Timestamp ≠ 0); simp [h]
  · intro (h : email.Timestamp = 0); simp [h]

theorem runOps_cons (s : EmailServer) (op : StoreOp) (ops : List StoreOp) :
    runOps s (op :: ops) = runOps (applyOp s op) ops := rfl

theorem runOps_addCalls (calls : List (Email × Time)) : ∀ s : EmailServer,
    ∃ added : List Email, (runOps s (addCalls calls)).emails = s.emails ++ added ∧
      List.Forall₂ storedFrom added calls := by
  induction calls with
  | nil => intro s; exact ⟨[], by simp [runOps, addCalls], List.Forall₂.nil⟩
  | cons p calls ih =>
    intro s
    obtain ⟨added, h1, h2⟩ := ih (AddEmail s p.1 p.2)
    refine ⟨stored s p.1 p.2 :: added, ?_, List.Forall₂.cons (storedFrom_stored s p.1 p.2) h2⟩
    have : runOps s (addCalls (p :: calls)) = runOps (AddEmail s p.1 p.2) (addCalls calls) := rfl
    rw [this, h1, AddEmail_emails]
    simp

/-! ### Phases of a session -/

theorem idle_cons (clock : Nat → Time) (c : Conn) (line : Str) (rest : List Str) :
    idle clock c (line :: rest) =
      if ToUpper line = "DATA".toList then
        inData clock
          { c with out := c.out ++ ["354 Start mail input; end with <CRLF>.<CRLF>\r\n".toList] }
          rest
      else if ToUpper line = "QUIT".toList then { c with out := c.out ++ ["221 Bye\r\n".toList] }
      else idle clock (cmdStep c line) rest := by
  rw [idle]
  by_cases hd : ToUpper line = "DATA".toList
  · simp only [hd, if_true]
    rfl
  · by_cases hq : ToUpper line = "QUIT".toList
    · simp only [hq]
      rfl
    · simp only [hd, hq, if_false, cmdStep]
      split_ifs <;> rfl

theorem foldl_phaseStep_closed (lines : List Str) :
    lines.foldl phaseStep Phase.closed = Phase.closed := by
  induction lines with
  | nil => rfl
  | cons l ls ih => exact ih

/-- Processing a prefix of the input leaves the handler in the phase computed by
`phaseStep`, in a state that does not depend on the lines that follow. -/
theorem run_append (clock : Nat → Time) (pre : List Str) : ∀ (ph : Phase) (c : Conn),
    ∃ c1 : Conn, ∀ rest : List Str,
      run clock ph c (pre ++ rest) = run clock (pre.foldl phaseStep ph) c1 rest := by
  induction pre with
  | nil => intro ph c; exact ⟨c, fun rest => rfl⟩
  | cons line pre ih =>
    intro ph c
    cases ph with
    | idle =>
      by_cases hd : ToUpper line = "DATA".toList
      · obtain ⟨c1, h1⟩ := ih Phase.inData
          { c with out := c.out ++ ["354 Start mail input; end with <CRLF>.<CRLF>\r\n".toList] }
        refine ⟨c1, fun rest => ?_⟩
        simp only [List.cons_append, List.foldl_cons, run, idle_cons, phaseStep, hd, if_true]
        exact h1 rest
      · by_cases hq : ToUpper line = "QUIT".toList
        · refine ⟨{ c with out := c.out ++ ["221 Bye\r\n".toList] }, fun rest => ?_⟩
          have e : idle clock c (line :: (pre ++ rest)) =
              { c with out := c.out ++ ["221 Bye\r\n".toList] } := by
            rw [idle_cons, if_neg hd, if_pos hq]
          have p : phaseStep Phase.idle line = Phase.closed := by
            simp only [phaseStep]
            rw [if_neg hd, if_pos hq]
          simp only [List.cons_append, List.foldl_cons, run, e, p, foldl_phaseStep_closed]
        · obtain ⟨c1, h1⟩ := ih Phase.idle (cmdStep c line)
          refine ⟨c1, fun rest => ?_⟩
          simp only [List.cons_append, List.foldl_cons, run, idle_cons, phaseStep, hd, hq,
            if_false]
          exact h1 rest
    | inData =>
      by_cases hdot : line = ['.']
      · obtain ⟨c1, h1⟩ := ih Phase.idle (commit clock c)
        refine ⟨c1, fun rest => ?_⟩
        simp only [List.cons_append, List.foldl_cons, run, inData_cons, phaseStep, hdot, if_true]
        exact h1 rest
      · obtain ⟨c1, h1⟩ := ih Phase.inData (appendData c line)
        refine ⟨c1, fun rest => ?_⟩
        simp only [List.cons_append, List.foldl_cons, run, inData_cons, phaseStep, hdot,
          if_false]
        exact h1 rest
    | closed =>
      refine ⟨c, fun rest => ?_⟩
      simp only [List.foldl_cons, phaseStep, foldl_phaseStep_closed, run]

/-- A prefix that ends in the command phase: the session on the whole input is
the command loop continued from the state reached on the prefix alone. -/
theorem handleConnection_append (clock : Nat → Time) (srv : EmailServer) (pre rest : List Str)
    (h : phaseAfter pre = Phase.idle) :
    handleConnection clock srv (pre ++ rest) = idle clock (handleConnection clock srv pre) rest := by
  obtain ⟨c1, h1⟩ := run_append clock pre Phase.idle
    { server := srv, sender := [], recipients := [], data := [],
      out := ["220 localhost SMTP server ready\r\n".toList], ticks := 0 }
  unfold phaseAfter at h
  rw [h] at h1
  have e1 := h1 rest
  have e2 := h1 []
  simp only [run, List.append_nil, idle_nil] at e1 e2
  unfold handleConnection
  rw [e1, e2]

/-- A prefix that ends in the data phase, followed by the line `.`: the session
on the whole input is the command loop continued from the state reached on the
prefix and the `.` alone, which is the state left by a commit. -/
theorem handleConnection_append_dot (clock : Nat → Time) (srv : EmailServer)
    (pre rest : List Str) (h : phaseAfter pre = Phase.inData) :
    ∃ c1 : Conn, handleConnection clock srv (pre ++ [['.']]) = commit clock c1 ∧
      handleConnection clock srv (pre ++ [['.']] ++ rest) = idle clock (commit clock c1) rest := by
  obtain ⟨c1, h1⟩ := run_append clock pre Phase.idle
    { server := srv, sender := [], recipients := [], data := [],
      out := ["220 localhost SMTP server ready\r\n".toList], ticks := 0 }
  unfold phaseAfter at h
  rw [h] at h1
  refine ⟨c1, ?_, ?_⟩
  · have e := h1 [['.']]
    simp only [run] at e
    unfold handleConnection
    rw [e, inData_cons, if_pos rfl, idle_nil]
  · have e := h1 (['.'] :: rest)
    simp only [run] at e
    unfold handleConnection
    rw [List.append_assoc]
    simp only [List.singleton_append]
    rw [e, inData_cons, if_pos rfl]

/-! ### Replies written before -/

theorem cmdStep_withOut (x : List Str) (c : Conn) (line : Str) :
    cmdStep (withOut x c) line = withOut x (cmdStep c line) := by
  unfold cmdStep withOut
  split_ifs <;> simp [List.append_assoc]

theorem commit_withOut (clock : Nat → Time) (x : List Str) (c : Conn) :
    commit clock (withOut x c) = withOut x (commit clock c) := by
  simp [commit, withOut, newEmail, List.append_assoc]

theorem appendData_withOut (x : List Str) (c : Conn) (line : Str) :
    appendData (withOut x c) line = withOut x (appendData c line) := by
  simp [appendData, withOut]

theorem withOut_frame (clock : Nat → Time) (lines : List Str) :
    (∀ (c : Conn) (x : List Str),
      idle clock (withOut x c) lines = withOut x (idle clock c lines)) ∧
    (∀ (c : Conn) (x : List Str),
      inData clock (withOut x c) lines = withOut x (inData clock c lines)) := by
  induction lines with
  | nil =>
    refine ⟨fun c x => ?_, fun c x => ?_⟩
    · rw [idle_nil, idle_nil]
    · rw [inData_nil, inData_nil, commit_withOut]
  | cons line rest ih =>
    obtain ⟨ih1, ih2⟩ := ih
    refine ⟨fun c x => ?_, fun c x => ?_⟩
    · rw [idle_cons, idle_cons]
      split_ifs
      · have e : ∀ m : Str, ({ withOut x c with out := (withOut x c).out ++ [m] } : Conn) =
            withOut x { c with out := c.out ++ [m] } := by
          intro m
          simp [withOut, List.append_assoc]
        rw [e, ih2]
      · simp [withOut, List.append_assoc]
      · rw [cmdStep_withOut, ih1]
    · rw [inData_cons, inData_cons]
      split_ifs
      · rw [commit_withOut, ih1]
      · rw [appendData_withOut, ih2]

/-! ### What a session adds to the store -/

theorem cmdStep_server (c : Conn) (line : Str) :
    (cmdStep c line).server = c.server ∧ (cmdStep c line).ticks = c.ticks := by
  unfold cmdStep
  split_ifs <;> exact ⟨rfl, rfl⟩

theorem cmdStep_pending (c c1 : Conn) (line : Str) (h : pending c = pending c1) :
    pending (cmdStep c line) = pending (cmdStep c1 line) := by
  simp only [pending, Prod.mk.injEq] at h
  obtain ⟨h1, h2, h3⟩ := h
  unfold cmdStep pending
  split_ifs <;> simp [h1, h2, h3]

theorem appendData_pending (c c1 : Conn) (line : Str) (h : pending c = pending c1) :
    pending (appendData c line) = pending (appendData c1 line) ∧
      (appendData c line).server = c.server := by
  simp only [pending, Prod.mk.injEq] at h
  obtain ⟨h1, h2, h3⟩ := h
  simp [appendData, pending, h1, h2, h3]

theorem commit_pending (clock : Nat → Time) (c : Conn) :
    pending (commit clock c) = ([], [], []) := rfl

theorem commit_emails (clock : Nat → Time) (c : Conn) :
    (commit clock c).server.emails =
      c.server.emails ++ [stored c.server (newEmail clock c) (clock (c.ticks + 1))] := by
  simp only [commit]
  exact AddEmail_emails _ _ _

theorem content_stored_newEmail (clock clock1 : Nat → Time) (c c1 : Conn) (now now1 : Time)
    (h : pending c = pending c1) :
    content (stored c.server (newEmail clock c) now) =
      content (stored c1.server (newEmail clock1 c1) now1) := by
  simp only [pending, Prod.mk.injEq] at h
  obtain ⟨h1, h2, h3⟩ := h
  simp [content, stored, newEmail, h1, h2, h3]

/-- The messages a run adds to the store are appended to the collection, and
what they say depends only on the pending transaction and on the input lines,
not on the store, the clock or the replies written before. -/
theorem content_frame (clock clock1 : Nat → Time) (lines : List Str) :
    (∀ c c1 : Conn, pending c = pending c1 →
      ∃ m m1 : List Email, (idle clock c lines).server.emails = c.server.emails ++ m ∧
        (idle clock1 c1 lines).server.emails = c1.server.emails ++ m1 ∧
        m.map content = m1.map content) ∧
    (∀ c c1 : Conn, pending c = pending c1 →
      ∃ m m1 : List Email, (inData clock c lines).server.emails = c.server.emails ++ m ∧
        (inData clock1 c1 lines).server.emails = c1.server.emails ++ m1 ∧
        m.map content = m1.map content) := by
  induction lines with
  | nil =>
    refine ⟨fun c c1 _ => ⟨[], [], by simp [idle_nil], by simp [idle_nil], rfl⟩,
      fun c c1 h => ?_⟩
    refine ⟨_, _, by rw [inData_nil, commit_emails], by rw [inData_nil, commit_emails], ?_⟩
    simp only [List.map_cons, List.map_nil]
    rw [content_stored_newEmail clock clock1 c c1 _ _ h]
  | cons line rest ih =>
    obtain ⟨ih1, ih2⟩ := ih
    refine ⟨fun c c1 h => ?_, fun c c1 h => ?_⟩
    · rw [idle_cons, idle_cons]
      split_ifs
      · exact ih2 _ _ h
      · exact ⟨[], [], by simp, by simp, rfl⟩
      · obtain ⟨m, m1, e1, e2, e3⟩ := ih1 _ _ (cmdStep_pending c c1 line h)
        rw [(cmdStep_server c line).1] at e1
        rw [(cmdStep_server c1 line).1] at e2
        exact ⟨m, m1, e1, e2, e3⟩
    · rw [inData_cons, inData_cons]
      split_ifs
      · obtain ⟨m, m1, e1, e2, e3⟩ := ih1 (commit clock c) (commit clock1 c1) rfl
        rw [commit_emails] at e1 e2
        refine ⟨stored c.server (newEmail clock c) (clock (c.ticks + 1)) :: m,
          stored c1.server (newEmail clock1 c1) (clock1 (c1.ticks + 1)) :: m1,
          by rw [e1]; simp, by rw [e2]; simp, ?_⟩
        simp only [List.map_cons]
        rw [content_stored_newEmail clock clock1 c c1 _ _ h, e3]
      · obtain ⟨m, m1, e1, e2, e3⟩ := ih2 _ _ (appendData_pending c c1 line h).1
        rw [(appendData_pending c c1 line h).2] at e1
        rw [(appendData_pending c1 c line h.symm).2] at e2
        exact ⟨m, m1, e1, e2, e3⟩

/-! ### The store calls of a session -/

theorem commit_server (clock : Nat → Time) (c : Conn) :
    (commit clock c).server =
      runOps c.server [StoreOp.add (newEmail clock c) (clock (c.ticks + 1))] := rfl

/-- The store after a run is the store before it after a sequence of `AddEmail`
calls whose candidates have an empty ID. -/
theorem session_storeOps (clock : Nat → Time) (lines : List Str) :
    (∀ c : Conn, ∃ ops : List StoreOp, (∀ op ∈ ops, isStoreAssigned op) ∧
      (idle clock c lines).server = runOps c.server ops) ∧
    (∀ c : Conn, ∃ ops : List StoreOp, (∀ op ∈ ops, isStoreAssigned op) ∧
      (inData clock c lines).server = runOps c.server ops) := by
  have hadd : ∀ c : Conn, ∀ op ∈ [StoreOp.add (newEmail clock c) (clock (c.ticks + 1))],
      isStoreAssigned op := by
    intro c op hop
    simp only [List.mem_singleton] at hop
    subst hop
    rfl
  induction lines with
  | nil =>
    refine ⟨fun c => ⟨[], by simp, by simp [idle_nil, runOps]⟩, fun c => ?_⟩
    exact ⟨_, hadd c, by rw [inData_nil, commit_server]⟩
  | cons line rest ih =>
    obtain ⟨ih1, ih2⟩ := ih
    refine ⟨fun c => ?_, fun c => ?_⟩
    · rw [idle_cons]
      split_ifs
      · exact ih2 _
      · exact ⟨[], by simp, by simp [runOps]⟩
      · obtain ⟨ops, h1, h2⟩ := ih1 (cmdStep c line)
        rw [(cmdStep_server c line).1] at h2
        exact ⟨ops, h1, h2⟩
    · rw [inData_cons]
      split_ifs
      · obtain ⟨ops, h1, h2⟩ := ih1 (commit clock c)
        refine ⟨StoreOp.add (newEmail clock c) (clock (c.ticks + 1)) :: ops, ?_, ?_⟩
        · intro op hop
          rcases List.mem_cons.1 hop with rfl | hop
          · rfl
          · exact h1 op hop
        · rw [h2, commit_server]
          rfl
      · obtain ⟨ops, h1, h2⟩ := ih2 (appendData c line)
        exact ⟨ops, h1, h2⟩

theorem AddEmail_idCounter (s : EmailServer) (email : Email) (now : Time)
    (h : email.ID = []) : (AddEmail s email now).idCounter = s.idCounter + 1 := by
  rw [AddEmail_emptyID s email now h]

theorem stored_ID (s : EmailServer) (email : Email) (now : Time) (h : email.ID = []) :
    (stored s email now).ID = formatID s.idCounter := by
  simp [stored, h]

theorem runOps_storeAssigned (ops : List StoreOp) : ∀ s : EmailServer,
    (∀ op ∈ ops, isStoreAssigned op) → 0 ≤ s.idCounter →
    ∃ added : List Email, (runOps s ops).emails = s.emails ++ added ∧
      added.map Email.ID =
        (List.range ops.length).map (fun i => Nat.toDigits 10 (s.idCounter.toNat + i)) ∧
      (runOps s ops).idCounter = s.idCounter + ops.length := by
  induction ops with
  | nil => intro s _ _; exact ⟨[], by simp [runOps], by simp, by simp [runOps]⟩
  | cons op ops ih =>
    intro s h h0
    have hop := h op (List.mem_cons_self _ _)
    cases op with
    | clear => exact absurd hop id
    | add email now =>
      have hid : email.ID = [] := hop
      have hc := AddEmail_idCounter s email now hid
      obtain ⟨added, h1, h2, h3⟩ := ih (AddEmail s email now)
        (fun o ho => h o (List.mem_cons_of_mem _ ho)) (by rw [hc]; omega)
      have hstep : runOps s (StoreOp.add email now :: ops) = runOps (AddEmail s email now) ops :=
        rfl
      rw [hstep]
      refine ⟨stored s email now :: added, ?_, ?_, ?_⟩
      · rw [h1, AddEmail_emails]
        simp
      · rw [List.map_cons, h2, stored_ID s email now hid, formatID_nonneg _ h0, hc,
          List.length_cons, List.range_succ_eq_map, List.map_cons, List.map_map]
        congr 1
        apply List.map_congr_left
        intro i _
        simp only [Function.comp]
        congr 1
        omega
      · rw [h3, hc, List.length_cons]
        push_cast
        ring

/-! ### History of the committed messages -/

theorem historyOK_applyEvent (w : EmailServer × List Email) (ev : Event) (h : historyOK w) :
    historyOK (applyEvent w ev) := by
  obtain ⟨h1, h2, h3⟩ := h
  cases ev with
  | clear => exact ⟨h1, by simp [applyEvent, ClearEmails], h3⟩
  | session clock lines =>
    obtain ⟨ops, hops, hsrv⟩ := (session_storeOps clock lines).1
      { server := w.1, sender := [], recipients := [], data := [],
        out := ["220 localhost SMTP server ready\r\n".toList], ticks := 0 }
    have hsrv2 : (handleConnection clock w.1 lines).server = runOps w.1 ops := hsrv
    obtain ⟨added, e1, e2, e3⟩ := runOps_storeAssigned ops w.1 hops (by rw [h3]; omega)
    have hdrop : (handleConnection clock w.1 lines).server.emails.drop w.1.emails.length
        = added := by
      rw [hsrv2, e1]
      simp
    have hlen : added.length = ops.length := by
      have := congrArg List.length e2
      simpa using this
    simp only [applyEvent, historyOK, hdrop]
    refine ⟨?_, ?_, ?_⟩
    · rw [List.map_append, h1, e2, List.length_append, hlen, List.range_add, List.map_append,
        List.map_map, h3]
      congr 1
      apply List.map_congr_left
      intro i _
      simp only [Function.comp]
      congr 1
      omega
    · rw [hsrv2, e1]
      obtain ⟨t, ht⟩ := h2
      exact ⟨t, by rw [← ht]; simp⟩
    · rw [hsrv2, e3, h3, List.length_append, hlen]
      push_cast
      ring

theorem historyOK_runEvents (evs : List Event) : ∀ w : EmailServer × List Email,
    historyOK w → historyOK (runEvents w evs) := by
  induction evs with
  | nil => intro w h; exact h
  | cons ev evs ih => intro w h; exact ih _ (historyOK_applyEvent w ev h)

theorem toDigits_injective : Function.Injective (fun i : Nat => Nat.toDigits 10 (i + 1)) := by
  intro a b h
  have := congrArg decimalValue h
  simp only [decimalValue_toDigits] at this
  omega

/-! ### Envelope, reset and unknown commands -/

theorem idle_envelope (clock : Nat → Time) (pre : List Str)
    (hpre : ∀ l ∈ pre, isEnvelopeLine l) : ∀ c : Conn,
    ∃ c1 : Conn, (∀ rest : List Str, idle clock c (pre ++ rest) = idle clock c1 rest) ∧
      c1.server = c.server ∧ c1.ticks = c.ticks ∧ c1.out = c.out ++ pre.map envelopeReply := by
  induction pre with
  | nil => intro c; exact ⟨c, fun rest => rfl, rfl, rfl, by simp⟩
  | cons line pre ih =>
    intro c
    have ih1 := ih (fun l hl => hpre l (List.mem_cons_of_mem _ hl))
    by_cases hm : HasPrefix (ToUpper line) "MAIL FROM:".toList = true
    · obtain ⟨c1, h1, h2, h3, h4⟩ := ih1
        { c with sender := TrimSpace (TrimPrefix line "MAIL FROM:".toList),
                 out := c.out ++ ["250 Sender OK\r\n".toList] }
      refine ⟨c1, fun rest => ?_, h2, h3, ?_⟩
      · rw [List.cons_append, idle_mailFrom clock c line _ hm]
        exact h1 rest
      · have er : envelopeReply line = "250 Sender OK\r\n".toList := by
          unfold envelopeReply
          rw [if_pos hm]
        rw [h4]
        simp only [List.map_cons, er, List.append_assoc, List.singleton_append]
    · have hr : HasPrefix (ToUpper line) "RCPT TO:".toList = true :=
        (hpre line (List.mem_cons_self _ _)).resolve_left hm
      have hm2 : HasPrefix (ToUpper line) "MAIL FROM:".toList = false := by
        simpa using hm
      obtain ⟨c1, h1, h2, h3, h4⟩ := ih1
        { c with recipients := c.recipients ++ [TrimSpace (TrimPrefix line "RCPT TO:".toList)],
                 out := c.out ++ ["250 Recipient OK\r\n".toList] }
      refine ⟨c1, fun rest => ?_, h2, h3, ?_⟩
      · rw [List.cons_append, idle_rcptTo clock c line _ hm2 hr]
        exact h1 rest
      · have er : envelopeReply line = "250 Recipient OK\r\n".toList := by
          unfold envelopeReply
          rw [if_neg hm]
        rw [h4]
        simp only [List.map_cons, er, List.append_assoc, List.singleton_append]

theorem cmdStep_rset (c : Conn) (line : Str) (h : ToUpper line = "RSET".toList) :
    cmdStep c line =
      { c with sender := [], recipients := [], data := [], out := c.out ++ ["250 OK\r\n".toList] } := by
  simp only [cmdStep, h]
  rfl

theorem idle_rset (clock : Nat → Time) (c : Conn) (line : Str) (rest : List Str)
    (h : ToUpper line = "RSET".toList) :
    idle clock c (line :: rest) =
      idle clock { c with sender := [], recipients := [], data := [],
                          out := c.out ++ ["250 OK\r\n".toList] } rest := by
  rw [idle_cons, cmdStep_rset c line h]
  simp only [h]
  rfl

theorem idle_dataCmd (clock : Nat → Time) (c : Conn) (line : Str) (rest : List Str)
    (h : ToUpper line = "DATA".toList) :
    idle clock c (line :: rest) =
      inData clock
        { c with out := c.out ++ ["354 Start mail input; end with <CRLF>.<CRLF>\r\n".toList] }
        rest := by
  rw [idle_cons, if_pos h]

theorem cmdStep_unknown (c : Conn) (line : Str) (h : recognised line = false) :
    cmdStep c line = { c with out := c.out ++ ["500 Unknown command\r\n".toList] } ∧
      ToUpper line ≠ "DATA".toList ∧ ToUpper line ≠ "QUIT".toList := by
  simp only [recognised, Bool.or_eq_false_iff, beq_eq_false_iff_ne, ne_eq] at h
  obtain ⟨⟨⟨⟨⟨⟨⟨h1, h2⟩, h3⟩, h4⟩, h5⟩, h6⟩, h7⟩, h8⟩ := h
  refine ⟨?_, h3, h4⟩
  unfold cmdStep
  rw [if_neg (by rw [h1]; exact Bool.false_ne_true), if_neg (by rw [h2]; exact Bool.false_ne_true),
    if_neg (not_or.2 ⟨h5, h6⟩), if_neg h7, if_neg h8]

theorem idle_unknown (clock : Nat → Time) (c : Conn) (line : Str) (rest : List Str)
    (h : recognised line = false) :
    idle clock c (line :: rest) =
      idle clock { c with out := c.out ++ ["500 Unknown command\r\n".toList] } rest := by
  obtain ⟨h1, h2, h3⟩ := cmdStep_unknown c line h
  rw [idle_cons, if_neg h2, if_neg h3, h1]

/-! ### Slices -/

theorem utf8Size_ascii (c : Char) (h : c.toNat < 128) : c.utf8Size = 1 := by
  have h1 : c.val.toNat < 128 := h
  have h2 : c.val ≤ 127 := by
    rw [UInt32.le_def]
    show c.val.toNat ≤ 127
    omega
  unfold Char.utf8Size
  exact if_pos h2

theorem sliceFrom_ascii (p : Str) (hp : ∀ c ∈ p, c.toNat < 128) : ∀ rest : Str,
    sliceFrom (p ++ rest) p.length = some rest := by
  induction p with
  | nil => intro rest; cases rest <;> rfl
  | cons c p ih =>
    intro rest
    have hc := utf8Size_ascii c (hp c (List.mem_cons_self _ _))
    simp only [List.cons_append, List.length_cons, sliceFrom, hc]
    simp only [Nat.le_add_left, if_true, Nat.add_sub_cancel]
    exact ih (fun x hx => hp x (List.mem_cons_of_mem _ hx)) rest

theorem utf8Size_pos (c : Char) : 0 < c.utf8Size := by
  unfold Char.utf8Size
  simp only
  split_ifs <;> omega

theorem sliceFrom_beyond : ∀ (s : Str) (n : Nat), byteLength s < n → sliceFrom s n = none
  | [], 0, h => by simp [byteLength] at h
  | [], _ + 1, _ => rfl
  | c :: s, 0, h => by simp [byteLength] at h
  | c :: s, n + 1, h => by
    have hb : byteLength (c :: s) = c.utf8Size + byteLength s := by simp [byteLength]
    rw [hb] at h
    simp only [sliceFrom]
    split_ifs with hc
    · exact sliceFrom_beyond s _ (by omega)
    · rfl

theorem lowerRune_ascii (c t : Char) (h : lowerRune c = t) (ht : t.toNat < 128)
    (hi : t ≠ 'i') (hk : t ≠ 'k') : c.toNat < 128 ∧ c.toLower = t := by
  unfold lowerRune at h
  split_ifs at h with h1 h2 h3
  · refine ⟨by omega, ?_⟩
    rw [← h]
    simp only [Char.toLower]
    rw [if_pos h1]
  · exact absurd h.symm hi
  · exact absurd h.symm hk
  · subst h
    refine ⟨ht, ?_⟩
    simp only [Char.toLower]
    rw [if_neg h1]

theorem lowercase_match_is_ascii (kw : Str)
    (hkw : ∀ t ∈ kw, t.toNat < 128 ∧ t ≠ 'i' ∧ t ≠ 'k') : ∀ line : Str,
    kw <+: ToLower line →
    ∃ p rest : Str, line = p ++ rest ∧ p.length = kw.length ∧ (∀ c ∈ p, c.toNat < 128) ∧
      p.map Char.toLower = kw := by
  induction kw with
  | nil => intro line _; exact ⟨[], line, rfl, rfl, by simp, rfl⟩
  | cons t kw ih =>
    intro line h
    cases line with
    | nil =>
      have := h.length_le
      simp [ToLower] at this
    | cons c line =>
      have h2 : t :: kw <+: lowerRune c :: ToLower line := h
      obtain ⟨e1, e2⟩ := List.cons_prefix_cons.1 h2
      obtain ⟨ht1, ht2, ht3⟩ := hkw t (List.mem_cons_self _ _)
      obtain ⟨hc1, hc2⟩ := lowerRune_ascii c t e1.symm ht1 ht2 ht3
      obtain ⟨p, rest, hp1, hp2, hp3, hp4⟩ :=
        ih (fun x hx => hkw x (List.mem_cons_of_mem _ hx)) line e2
      refine ⟨c :: p, rest, by rw [hp1]; rfl, by simp [hp2], ?_, by simp [hc2, hp4]⟩
      intro x hx
      rcases List.mem_cons.1 hx with rfl | hx
      · exact hc1
      · exact hp3 x hx

theorem byteLength_ascii (p : Str) (hp : ∀ c ∈ p, c.toNat < 128) : byteLength p = p.length := by
  induction p with
  | nil => rfl
  | cons c p ih =>
    have hc := utf8Size_ascii c (hp c (List.mem_cons_self _ _))
    have := ih (fun x hx => hp x (List.mem_cons_of_mem _ hx))
    simp only [byteLength, List.map_cons, List.sum_cons, List.length_cons] at this ⊢
    omega

theorem byteLength_append (a b : Str) : byteLength (a ++ b) = byteLength a + byteLength b := by
  simp [byteLength]

theorem subject_slice (line : Str)
    (h : HasPrefix (ToLower line) "subject:".toList = true) :
    8 ≤ byteLength line ∧ (∀ c ∈ line.take 8, c.toNat < 128) ∧
      (line.take 8).map Char.toLower = "subject:".toList ∧
      sliceFrom line 8 = some (line.drop 8) := by
  obtain ⟨p, rest, h1, h2, h3, h4⟩ := lowercase_match_is_ascii "subject:".toList (by decide) line
    (List.isPrefixOf_iff_prefix.1 h)
  have h2b : p.length = 8 := h2
  subst h1
  have ht : (p ++ rest).take 8 = p := by rw [← h2b]; exact List.take_left p rest
  have hd : (p ++ rest).drop 8 = rest := by rw [← h2b]; exact List.drop_left p rest
  refine ⟨?_, ?_, ?_, ?_⟩
  · rw [byteLength_append, byteLength_ascii p h3, h2b]
    omega
  · rw [ht]; exact h3
  · rw [ht]; exact h4
  · rw [hd, ← h2b]
    exact sliceFrom_ascii p h3 rest

theorem dot_slice (line : Str) (h : HasPrefix line ['.'] = true) :
    1 ≤ byteLength line ∧ sliceFrom line 1 = some (line.drop 1) := by
  cases line with
  | nil => simp [HasPrefix] at h
  | cons c rest =>
    have hc : c = '.' := by
      simp [HasPrefix, List.isPrefixOf] at h
      exact h.symm
    subst hc
    refine ⟨?_, sliceFrom_ascii ['.'] (by decide) rest⟩
    have := byteLength_append ['.'] rest
    simp only [List.singleton_append] at this
    rw [this]
    have : byteLength ['.'] = 1 := by decide
    omega

theorem appendDataChecked_eq (c : Conn) (line : Str) :
    appendDataChecked c line = some (appendData c line) := by
  unfold appendDataChecked appendData
  by_cases h : HasPrefix line ['.'] = true
  · simp only [h, if_true, (dot_slice line h).2, Option.map_some']
  · simp only [h]
    rfl

theorem scanHeadersChecked_eq (ls : List Str) : ∀ acc : Str × Bool,
    scanHeadersChecked ls acc = some (scanHeaders ls acc) := by
  induction ls with
  | nil => intro acc; rfl
  | cons line rest ih =>
    intro acc
    obtain ⟨s, f⟩ := acc
    by_cases h : HasPrefix (ToLower line) "subject:".toList = true
    · simp only [scanHeadersChecked, scanHeaders, h, if_true, (subject_slice line h).2.2.2,
        Option.map_some', Option.some_bind, ih]
    · simp only [scanHeadersChecked, scanHeaders, h, Option.some_bind, ih]
      rfl

theorem inData_commits (clock : Nat → Time) (lines : List Str) : ∀ c : Conn,
    ∃ (e : Email) (m : List Email),
      (inData clock c lines).server.emails = c.server.emails ++ e :: m := by
  induction lines with
  | nil =>
    intro c
    exact ⟨_, [], by rw [inData_nil, commit_emails]⟩
  | cons line rest ih =>
    intro c
    rw [inData_cons]
    split_ifs
    · obtain ⟨m, -, e1, -, -⟩ := (content_frame clock clock rest).1 (commit clock c)
        (commit clock c) rfl
      exact ⟨stored c.server (newEmail clock c) (clock (c.ticks + 1)), m,
        by rw [e1, commit_emails]; simp⟩
    · obtain ⟨e, m, h⟩ := ih (appendData c line)
      exact ⟨e, m, h⟩

/-! ## The claims -/

/-- Claim C1: starting from a new store, in a sequence of `AddEmail` and
`ClearEmails` calls whose candidates all have an empty ID, the `AddEmail` call
that follows the calls `pre` is the k-th one, k = `countAdds pre + 1`, and it
stores its message (last in the collection) under the decimal string of k. The
numeric value of that string is k and no other number is written the same way,
so the assigned identifiers increase strictly and never repeat, whatever
`ClearEmails` calls intervene; the counter goes to k + 1 and `ClearEmails`
leaves the counter unchanged. -/
theorem addEmail_assigns_call_index (smtpPort httpPort : Int) (pre : List StoreOp)
    (email : Email) (now : Time)
    (hpre : ∀ op ∈ pre, emptyID op = true) (hid : email.ID = []) :
    (runOps (NewEmailServer smtpPort httpPort) (pre ++ [StoreOp.add email now])).emails.getLast? =
      some { email with
        ID := Nat.toDigits 10 (countAdds pre + 1),
        Timestamp := if email.Timestamp = 0 then now else email.Timestamp } ∧
    decimalValue (Nat.toDigits 10 (countAdds pre + 1)) = countAdds pre + 1 ∧
    (∀ j : Nat, Nat.toDigits 10 j = Nat.toDigits 10 (countAdds pre + 1) → j = countAdds pre + 1) ∧
    (runOps (NewEmailServer smtpPort httpPort) (pre ++ [StoreOp.add email now])).idCounter =
      ((countAdds pre + 1 : Nat) : Int) + 1 ∧
    ∀ s : EmailServer, (ClearEmails s).idCounter = s.idCounter := by
  have hc := runOps_idCounter pre (NewEmailServer smtpPort httpPort) hpre
  have hc1 : (runOps (NewEmailServer smtpPort httpPort) pre).idCounter
      = ((countAdds pre + 1 : Nat) : Int) := by
    rw [hc]; simp [NewEmailServer]; ring
  have hstep : runOps (NewEmailServer smtpPort httpPort) (pre ++ [StoreOp.add email now]) =
      AddEmail (runOps (NewEmailServer smtpPort httpPort) pre) email now := by
    rw [runOps_append]; rfl
  rw [hstep, AddEmail_emptyID _ email now hid, hc1, formatID_nonneg _ (by omega)]
  refine ⟨by simp, decimalValue_toDigits _, fun j hj => ?_, rfl, fun s => rfl⟩
  rw [← decimalValue_toDigits j, hj, decimalValue_toDigits]

/-- Claim C1, instance: after one `AddEmail` and a `ClearEmails`, the second
`AddEmail` stores its message under `2`. -/
theorem addEmail_assigns_call_index_witness :
    (runOps (NewEmailServer 1025 8025)
      ([StoreOp.add ⟨[], "a".toList, [], [], [], false, 0⟩ 5, StoreOp.clear] ++
        [StoreOp.add ⟨[], "b".toList, [], [], [], false, 0⟩ 7])).emails.getLast? =
      some ⟨"2".toList, "b".toList, [], [], [], false, 7⟩ :=
  (addEmail_assigns_call_index 1025 8025
    [StoreOp.add ⟨[], "a".toList, [], [], [], false, 0⟩ 5, StoreOp.clear]
    ⟨[], "b".toList, [], [], [], false, 0⟩ 7 (by decide) rfl).1

/-- Claim C2: on a store with an empty collection, the session `MAIL FROM:`s,
`RCPT TO:`r1, ..., `RCPT TO:`rn, `DATA`, `Subject: `t, empty line, b1, ..., bm,
`.`, `QUIT` (the lines `roundTripLines s rs t bs`), where s, the ri and t have no
white space at either end, t has no CR or LF and its lowercase form does not
contain `content-type: text/html`, and no bi begins with `.`, leaves exactly one
stored message: From = s, To = the ri in order, Subject = t, Body = every bi
followed by CRLF, HTML = false. -/
theorem session_round_trip (clock : Nat → Time) (srv : EmailServer) (s : Str) (rs : List Str)
    (t : Str) (bs : List Str)
    (hsrv : srv.emails = [])
    (hs : noOuterSpace s) (hrs : ∀ r ∈ rs, noOuterSpace r)
    (ht : noOuterSpace t) (htc : noCRLF t)
    (hth : Contains (ToLower t) "content-type: text/html".toList = false)
    (hbs : ∀ b ∈ bs, HasPrefix b ['.'] = false) :
    (handleConnection clock srv (roundTripLines s rs t bs)).server.emails =
      [{ ID := formatID srv.idCounter, From := s, To := rs, Subject := t,
         Body := (bs.map (fun b => b ++ crlf)).flatten, HTML := false,
         Timestamp := if clock 0 = 0 then clock 1 else clock 0 }] := by
  have hdata : ("Subject: ".toList ++ t) :: [] :: (bs ++ [['.'], "QUIT".toList]) =
      (("Subject: ".toList ++ t) :: [] :: bs).map escape ++ ['.'] :: ["QUIT".toList] := by
    rw [map_escape_eq_self]
    · simp
    · intro l hl
      simp only [List.mem_cons] at hl
      rcases hl with rfl | rfl | hl
      · exact HasPrefix_cons_ne 'S' '.' _ _ (by decide)
      · rfl
      · exact hbs l hl
  have hbuf : ([] : Str) ++ ((("Subject: ".toList ++ t) :: [] :: bs).map
      (fun l => l ++ crlf)).flatten =
      ("Subject: ".toList ++ t) ++ blankLine ++ (bs.map (fun b => b ++ crlf)).flatten := by
    simp [crlf, blankLine]
  unfold handleConnection roundTripLines
  rw [idle_mailFrom clock _ _ _ (HasPrefix_upper_keyword "MAIL FROM:".toList s rfl),
    idle_rcptTo_list clock rs hrs, idle_data, hdata, inData_escaped, idle_quit]
  simp only [hbuf, commit, newEmail, parseData_round_trip t _ ht htc hth, TrimPrefix_append,
    TrimSpace_eq_self s hs, AddEmail, hsrv]
  by_cases hc : clock 0 = 0 <;> simp [hc]

/-- Claim C2, instance: the session `MAIL FROM:<a@x>`, `RCPT TO:<b@y>`, `DATA`,
`Subject: Hi`, empty line, `hello`, `.`, `QUIT`. -/
theorem session_round_trip_witness :
    (handleConnection tickClock (NewEmailServer 1025 8025)
      ["MAIL FROM:<a@x>".toList, "RCPT TO:<b@y>".toList, "DATA".toList, "Subject: Hi".toList, [],
       "hello".toList, ".".toList, "QUIT".toList]).server.emails =
      [⟨"1".toList, "<a@x>".toList, ["<b@y>".toList], "Hi".toList, "hello\r\n".toList, false, 1⟩] :=
  session_round_trip tickClock (NewEmailServer 1025 8025) "<a@x>".toList ["<b@y>".toList]
    "Hi".toList ["hello".toList] rfl
    (by decide) (by decide) (by decide) (by decide) (by decide) (by decide)

/-- Claim C3: dot-escaping round trip. When the peer sends the lines `originals`,
each with one more `.` in front if it begins with `.` (`escape`), and then the
line `.`, the data phase consumes exactly these lines: it ends at the final `.`,
which is not stored, the lines `rest` after it are read as commands, and the
buffer handed to the commit is the buffer at the start of the phase followed by
every original line with CRLF after it. In `handleConnection` the buffer is
empty at `DATA`, so that the committed buffer is exactly that concatenation. -/
theorem dot_escaping_round_trip (clock : Nat → Time) (originals rest : List Str) :
    (∀ c : Conn, inData clock c (originals.map escape ++ ['.'] :: rest) =
      idle clock
        (commit clock { c with data := c.data ++ (originals.map (fun l => l ++ crlf)).flatten })
        rest) ∧
    (∀ srv : EmailServer,
      handleConnection clock srv ("DATA".toList :: (originals.map escape ++ ['.'] :: rest)) =
        idle clock
          (commit clock
            { server := srv, sender := [], recipients := [],
              data := (originals.map (fun l => l ++ crlf)).flatten,
              out := ["220 localhost SMTP server ready\r\n".toList,
                      "354 Start mail input; end with <CRLF>.<CRLF>\r\n".toList],
              ticks := 0 })
          rest) := by
  refine ⟨fun c => inData_escaped clock originals c rest, fun srv => ?_⟩
  unfold handleConnection
  rw [idle_data, inData_escaped]
  rfl

/-- Claim C3, instance: the data line `..leading` is stored as `.leading`. -/
theorem dot_escaping_round_trip_witness :
    (handleConnection tickClock (NewEmailServer 1025 8025)
      ["DATA".toList, "..leading".toList, ".".toList]).server.emails.map Email.Body =
      [".leading\r\n".toList] :=
  (congrArg (fun r => r.server.emails.map Email.Body)
    ((dot_escaping_round_trip tickClock [".leading".toList] []).2 (NewEmailServer 1025 8025))).trans
    (by decide)

/-- Claim C4, the code at the failing input: the input ends in the data phase,
after `hel` and before any `.` line, and the session still adds a message to
the store, built from the data received so far. -/
theorem disconnect_in_data_commits :
    (handleConnection tickClock (NewEmailServer 1025 8025)
      ["MAIL FROM:<a@x>".toList, "RCPT TO:<b@y>".toList, "DATA".toList, "Subject: Hi".toList, [],
       "hel".toList]).server.emails =
      [⟨"1".toList, "<a@x>".toList, ["<b@y>".toList], "Hi".toList, "hel\r\n".toList, false, 1⟩] := by
  decide

/-- Claim C5, counterexample: two `AddEmail` calls whose candidates both carry the
ID `7` leave two stored messages with the same ID. -/
theorem caller_ids_can_repeat :
    ¬ ((runOps (NewEmailServer 1025 8025)
      [StoreOp.add ⟨"7".toList, "a".toList, [], [], [], false, 0⟩ 5,
       StoreOp.add ⟨"7".toList, "b".toList, [], [], [], false, 0⟩ 6]).emails.map Email.ID).Nodup := by
  decide

/-- Claim C5, amended: in every store state reached from a new store by `AddEmail`
calls whose candidates have an empty ID and by `ClearEmails` calls, no two
stored messages have the same ID. -/
theorem ids_unique_when_store_assigns (smtpPort httpPort : Int) (ops : List StoreOp)
    (hops : ∀ op ∈ ops, emptyID op = true) :
    ((runOps (NewEmailServer smtpPort httpPort) ops).emails.map Email.ID).Nodup := by
  obtain ⟨h1, -, -⟩ := storeOrdered_runOps ops _ (storeOrdered_new smtpPort httpPort) hops
  have h2 : ((runOps (NewEmailServer smtpPort httpPort) ops).emails.map
      (fun e => (decimalValue e.ID : Int))).Nodup :=
    h1.imp (fun h => ne_of_lt h)
  have h3 : (((runOps (NewEmailServer smtpPort httpPort) ops).emails.map Email.ID).map
      (fun i => (decimalValue i : Int))).Nodup := by
    simpa [List.map_map, Function.comp] using h2
  exact List.Nodup.of_map _ h3

/-- Claim C5 amended, instance: three store-assigned identifiers around a
`ClearEmails`. -/
theorem ids_unique_when_store_assigns_witness :
    ((runOps (NewEmailServer 1025 8025)
      [StoreOp.add ⟨[], "a".toList, [], [], [], false, 0⟩ 5, StoreOp.clear,
       StoreOp.add ⟨[], "b".toList, [], [], [], false, 0⟩ 6,
       StoreOp.add ⟨[], "c".toList, [], [], [], false, 0⟩ 6]).emails.map Email.ID).Nodup :=
  ids_unique_when_store_assigns 1025 8025 _ (by decide)

/-- Claim C6: header/body split at the end of the data phase, for the message
built from the accumulated buffer `c.data`. If the buffer is `h`, then
`\r\n\r\n`, then `b`, with no `\r\n\r\n` starting inside `h` (first
occurrence), the body is exactly `b` and subject and HTML flag come from the
scan of the lines of `h` alone; such `h` and `b` exist whenever the buffer
contains `\r\n\r\n`. If the buffer does not contain `\r\n\r\n`, the body is the
whole buffer, the subject is empty and HTML is false. -/
theorem header_body_split (clock : Nat → Time) (c : Conn) :
    (∀ (h b : Str) (ls : List Str), c.data = h ++ blankLine ++ b →
      ¬ blankLine <:+: h ++ blankLine.dropLast → IsLines h ls →
        (newEmail clock c).Body = b ∧
        (newEmail clock c).Subject = (scanHeaders ls ([], false)).1 ∧
        (newEmail clock c).HTML = (scanHeaders ls ([], false)).2) ∧
    (blankLine <:+: c.data →
      ∃ h b : Str, c.data = h ++ blankLine ++ b ∧ ¬ blankLine <:+: h ++ blankLine.dropLast ∧
        (newEmail clock c).Body = b) ∧
    (¬ blankLine <:+: c.data →
      (newEmail clock c).Body = c.data ∧ (newEmail clock c).Subject = [] ∧
        (newEmail clock c).HTML = false) := by
  refine ⟨fun h b ls hc hfirst hls => ?_, ?_, ?_⟩
  · simp only [newEmail, parseData_of_first c.data h b hc hfirst ls hls, and_self]
  · intro hin
    cases hc : cut blankLine c.data with
    | none => exact absurd hin ((cut_eq_none_iff _ _).1 hc)
    | some p =>
      obtain ⟨h, b⟩ := p
      refine ⟨h, b, cut_sound _ _ _ _ hc, cut_some_first _ (by simp [blankLine]) _ _ _ hc, ?_⟩
      simp only [newEmail, parseData_of_cut_some c.data h b hc]
  · intro hno
    simp only [newEmail, parseData_of_cut_none c.data ((cut_eq_none_iff _ _).2 hno), and_self]

/-- Claim C6, instances: a buffer in which the separator occurs twice, and a
buffer without separator. -/
theorem header_body_split_witness :
    (newEmail tickClock
      ⟨NewEmailServer 1025 8025, [], [], "Subject: Hi\r\n\r\nhello\r\n\r\nbye".toList, [], 0⟩).Body =
      "hello\r\n\r\nbye".toList ∧
    (newEmail tickClock
      ⟨NewEmailServer 1025 8025, [], [], "no separator\r\n".toList, [], 0⟩).Body =
      "no separator\r\n".toList :=
  ⟨((header_body_split tickClock
      ⟨NewEmailServer 1025 8025, [], [], "Subject: Hi\r\n\r\nhello\r\n\r\nbye".toList, [], 0⟩).1
      "Subject: Hi".toList "hello\r\n\r\nbye".toList ["Subject: Hi".toList]
      (by decide) (by decide) ⟨by decide, by decide, by decide⟩).1,
   ((header_body_split tickClock
      ⟨NewEmailServer 1025 8025, [], [], "no separator\r\n".toList, [], 0⟩).2.2 (by decide)).1⟩

/-- Claim C7, the code at the failing input: for `mail from:<a@x>` and
`rcpt to:<b@y>` the replies are `250 Sender OK` and `250 Recipient OK`, but the
recorded sender and recipient are the whole lines, keyword included. -/
theorem lowercase_keyword_is_kept :
    (handleConnection tickClock (NewEmailServer 1025 8025)
      ["mail from:<a@x>".toList, "rcpt to:<b@y>".toList]).sender = "mail from:<a@x>".toList ∧
    (handleConnection tickClock (NewEmailServer 1025 8025)
      ["mail from:<a@x>".toList, "rcpt to:<b@y>".toList]).recipients = ["rcpt to:<b@y>".toList] ∧
    (handleConnection tickClock (NewEmailServer 1025 8025)
      ["mail from:<a@x>".toList, "rcpt to:<b@y>".toList]).out =
      ["220 localhost SMTP server ready\r\n".toList, "250 Sender OK\r\n".toList,
       "250 Recipient OK\r\n".toList] := by
  decide

/-- Claim C8, the code at the failing input: the greeting `EHLO client.example`,
keyword followed by a space and a client domain, matches no branch of the
command loop and is answered `500 Unknown command`, not `250 Hello`. The branch
for `HELO` / `EHLO` compares the whole line with the keyword, where the
branches for `MAIL FROM:` and `RCPT TO:` compare a leading part of it. -/
theorem ehlo_with_domain_is_unknown :
    (handleConnection tickClock (NewEmailServer 1025 8025) ["EHLO client.example".toList]).out =
      ["220 localhost SMTP server ready\r\n".toList, "500 Unknown command\r\n".toList] ∧
    (handleConnection tickClock (NewEmailServer 1025 8025) ["EHLO client.example".toList]).out ≠
      ["220 localhost SMTP server ready\r\n".toList, "250 Hello\r\n".toList] := by
  decide

/-- The part of the `HELO` / `EHLO` branch that the code does handle: for a
line that is the bare keyword in any letter case, the handler replies
`250 Hello`, goes on in the command loop, and leaves the pending sender,
recipients, data buffer and the store unchanged. -/
theorem bare_helo_replies_hello (clock : Nat → Time) (c : Conn) (line : Str) (rest : List Str)
    (h : ToUpper line = "HELO".toList ∨ ToUpper line = "EHLO".toList) :
    idle clock c (line :: rest) =
      idle clock { c with out := c.out ++ ["250 Hello\r\n".toList] } rest := by
  rw [idle]
  rcases h with h | h <;> simp only [h] <;> rfl

/-- Instance of the bare keyword: the line `eHlo` with a transaction pending. -/
theorem bare_helo_replies_hello_witness :
    idle tickClock ⟨NewEmailServer 1025 8025, "<a@x>".toList, ["<b@y>".toList], [], [], 0⟩
      ["eHlo".toList] =
      ⟨NewEmailServer 1025 8025, "<a@x>".toList, ["<b@y>".toList], [], ["250 Hello\r\n".toList], 0⟩ :=
  (bare_helo_replies_hello tickClock
    ⟨NewEmailServer 1025 8025, "<a@x>".toList, ["<b@y>".toList], [], [], 0⟩ "eHlo".toList []
    (Or.inr (by decide))).trans (by decide)

/-- Claim C9, counterexample: for the header line `Subject: Hi ` the subject of
the message is `Hi`; the remainder after the 8 characters with only its leading
white space removed would be `Hi ` with its trailing space. -/
theorem subject_trailing_space_removed :
    (newEmail tickClock
      ⟨NewEmailServer 1025 8025, [], [], "Subject: Hi \r\n\r\nbody\r\n".toList, [], 0⟩).Subject =
      "Hi".toList ∧
    (newEmail tickClock
      ⟨NewEmailServer 1025 8025, [], [], "Subject: Hi \r\n\r\nbody\r\n".toList, [], 0⟩).Subject ≠
      ("Subject: Hi ".toList.drop 8).dropWhile isSpace := by
  decide

/-- Claim C9, amended: when the accumulated buffer `c.data` is `h`,
`\r\n\r\n`, `b` (first occurrence) and `ls` are the lines of `h`, the subject
of the message is the remainder after the first 8 characters, with leading and
trailing white space removed, of the last line of `ls` whose lowercase form
starts with `subject:`; it is empty if no line of `ls` does, and empty if the
buffer has no `\r\n\r\n`. -/
theorem subject_extraction (clock : Nat → Time) (c : Conn) :
    (∀ (h b : Str) (ls : List Str), c.data = h ++ blankLine ++ b →
      ¬ blankLine <:+: h ++ blankLine.dropLast → IsLines h ls →
        (∀ (pre post : List Str) (line : Str), ls = pre ++ line :: post →
          "subject:".toList <+: ToLower line →
          (∀ l ∈ post, ¬ "subject:".toList <+: ToLower l) →
            (newEmail clock c).Subject = TrimSpace (line.drop 8)) ∧
        ((∀ l ∈ ls, ¬ "subject:".toList <+: ToLower l) → (newEmail clock c).Subject = [])) ∧
    (¬ blankLine <:+: c.data → (newEmail clock c).Subject = []) := by
  have hb : ∀ l : Str, ¬ "subject:".toList <+: ToLower l →
      HasPrefix (ToLower l) "subject:".toList = false := by
    intro l hl
    unfold HasPrefix
    rw [← List.isPrefixOf_iff_prefix] at hl
    exact Bool.eq_false_iff.2 hl
  refine ⟨fun h b ls hc hfirst hls => ?_, ?_⟩
  · simp only [newEmail, parseData_of_first c.data h b hc hfirst ls hls]
    constructor
    · intro pre post line hls2 hline hpost
      rw [hls2]
      exact scanHeaders_fst_of_last_match pre post line
        (List.isPrefixOf_iff_prefix.2 hline) (fun l hl => hb l (hpost l hl)) _
    · intro hnone
      exact scanHeaders_fst_of_no_match ls (fun l hl => hb l (hnone l hl)) _
  · intro hno
    simp only [newEmail, parseData_of_cut_none c.data ((cut_eq_none_iff _ _).2 hno)]

/-- Claim C9 amended, instance: two subject lines, the last one in mixed case
with white space on both sides of its value. -/
theorem subject_extraction_witness :
    (newEmail tickClock
      ⟨NewEmailServer 1025 8025, [], [],
        "Subject: a\r\nsubJECT:\t Hi \r\nX: y\r\n\r\nbody\r\n".toList, [], 0⟩).Subject =
      "Hi".toList :=
  (((subject_extraction tickClock
      ⟨NewEmailServer 1025 8025, [], [],
        "Subject: a\r\nsubJECT:\t Hi \r\nX: y\r\n\r\nbody\r\n".toList, [], 0⟩).1
      "Subject: a\r\nsubJECT:\t Hi \r\nX: y".toList "body\r\n".toList
      ["Subject: a".toList, "subJECT:\t Hi ".toList, "X: y".toList]
      (by decide) (by decide) ⟨by decide, by decide, by decide⟩).1
      ["Subject: a".toList] ["X: y".toList] "subJECT:\t Hi ".toList
      (by decide) (by decide) (by decide)).trans (by decide)

/-- Claim C10: the message built from the accumulated buffer `c.data` has
HTML = true if and only if the buffer contains `\r\n\r\n` and some
CRLF-separated line of the text before its first occurrence has a lowercase
form containing `content-type: text/html`. Text in the body alone never sets
it. -/
theorem html_iff_header_line (clock : Nat → Time) (c : Conn) :
    (newEmail clock c).HTML = true ↔
      ∃ h b : Str, c.data = h ++ blankLine ++ b ∧ ¬ blankLine <:+: h ++ blankLine.dropLast ∧
        ∃ ls : List Str, IsLines h ls ∧
          ∃ line ∈ ls, "content-type: text/html".toList <:+: ToLower line := by
  show (parseData c.data).2.2 = true ↔ _
  constructor
  · intro hp
    cases hc : cut blankLine c.data with
    | none =>
      rw [parseData_of_cut_none c.data hc] at hp
      simp at hp
    | some p =>
      obtain ⟨h, b⟩ := p
      rw [parseData_of_cut_some c.data h b hc, scanHeaders_snd] at hp
      simp only [Bool.false_or, List.any_eq_true] at hp
      obtain ⟨line, hmem, hcont⟩ := hp
      exact ⟨h, b, cut_sound _ _ _ _ hc, cut_some_first _ (by simp [blankLine]) _ _ _ hc,
        Split h crlf, Split_isLines h, line, hmem, (Contains_iff_occurs _ _).1 hcont⟩
  · rintro ⟨h, b, hc, hfirst, ls, hls, line, hmem, hcont⟩
    rw [parseData_of_first c.data h b hc hfirst ls hls, scanHeaders_snd]
    simp only [Bool.false_or, List.any_eq_true]
    exact ⟨line, hmem, (Contains_iff_occurs _ _).2 hcont⟩

/-- Claim C11: `RSET` discards the pending transaction and no sequencing is
enforced. After a prefix `pre` of `MAIL FROM:` / `RCPT TO:` lines, the line
`RSET` (any letter case, answered `250 OK`) followed directly by `DATA`, the
data lines (`originals`, dot-stuffed) and `.`: the `DATA` is accepted, the
handler commits and goes on with the lines `rest`, and the commit adds exactly
one message to the store, with empty sender and no recipients, whose subject,
body and HTML flag are parsed from the data lines sent after that `DATA`
alone. -/
theorem rset_discards_and_data_is_accepted (clock : Nat → Time) (srv : EmailServer)
    (pre : List Str) (rset dataCmd : Str) (originals rest : List Str)
    (hpre : ∀ l ∈ pre, isEnvelopeLine l)
    (hr : ToUpper rset = "RSET".toList) (hd : ToUpper dataCmd = "DATA".toList) :
    handleConnection clock srv
        (pre ++ rset :: dataCmd :: (originals.map escape ++ ['.'] :: rest)) =
      idle clock
        (commit clock
          { server := srv, sender := [], recipients := [],
            data := (originals.map (fun l => l ++ crlf)).flatten,
            out := "220 localhost SMTP server ready\r\n".toList :: pre.map envelopeReply ++
              ["250 OK\r\n".toList, "354 Start mail input; end with <CRLF>.<CRLF>\r\n".toList],
            ticks := 0 })
        rest ∧
    (commit clock
          { server := srv, sender := [], recipients := [],
            data := (originals.map (fun l => l ++ crlf)).flatten,
            out := "220 localhost SMTP server ready\r\n".toList :: pre.map envelopeReply ++
              ["250 OK\r\n".toList, "354 Start mail input; end with <CRLF>.<CRLF>\r\n".toList],
            ticks := 0 }).server.emails =
      srv.emails ++
        [{ ID := formatID srv.idCounter, From := [], To := [],
           Subject := (parseData (originals.map (fun l => l ++ crlf)).flatten).1,
           Body := (parseData (originals.map (fun l => l ++ crlf)).flatten).2.1,
           HTML := (parseData (originals.map (fun l => l ++ crlf)).flatten).2.2,
           Timestamp := if clock 0 = 0 then clock 1 else clock 0 }] := by
  constructor
  · obtain ⟨c1, h1, h2, h3, h4⟩ := idle_envelope clock pre hpre
      { server := srv, sender := [], recipients := [], data := [],
        out := ["220 localhost SMTP server ready\r\n".toList], ticks := 0 }
    unfold handleConnection
    rw [h1, idle_rset clock c1 rset _ hr, idle_dataCmd clock _ dataCmd _ hd, inData_escaped]
    simp only [h2, h3, h4, List.nil_append, List.cons_append, List.append_assoc]
  · rw [commit_emails]
    simp only [stored, newEmail]
    by_cases hc : clock 0 = 0 <;> simp [hc]

/-- Claim C11, instance: `MAIL FROM:<a@x>`, `rcpt to:<b@y>`, `RSET`, `data`,
`Subject: Hi`, empty line, `..x`, `.`, `QUIT`. -/
theorem rset_discards_and_data_is_accepted_witness :
    (handleConnection tickClock (NewEmailServer 1025 8025)
      ["MAIL FROM:<a@x>".toList, "rcpt to:<b@y>".toList, "RSET".toList, "data".toList,
       "Subject: Hi".toList, [], "..x".toList, ".".toList, "QUIT".toList]).server.emails =
      [⟨"1".toList, [], [], "Hi".toList, ".x\r\n".toList, false, 1⟩] :=
  (congrArg (fun r => r.server.emails)
    (rset_discards_and_data_is_accepted tickClock (NewEmailServer 1025 8025)
      ["MAIL FROM:<a@x>".toList, "rcpt to:<b@y>".toList] "RSET".toList "data".toList
      ["Subject: Hi".toList, [], ".x".toList] ["QUIT".toList]
      (by decide) (by decide) (by decide)).1).trans (by decide)

/-- Claim C12: an unrecognised command is reported and has no other effect. A
line `u` that matches no branch of the command loop is answered
`500 Unknown command` and leaves the state otherwise as it is; inserted in a
session after a prefix `pre` that ends in the command phase, it changes the
final state of the session (store, pending sender, recipients, buffer, clock
readings) in nothing but the replies, where the one reply `500 Unknown command`
is added right after the replies to `pre`. -/
theorem unknown_command_only_adds_a_reply (clock : Nat → Time) (srv : EmailServer)
    (pre post : List Str) (u : Str)
    (hpre : phaseAfter pre = Phase.idle) (hu : recognised u = false) :
    (∀ (c : Conn) (rest : List Str), idle clock c (u :: rest) =
      idle clock { c with out := c.out ++ ["500 Unknown command\r\n".toList] } rest) ∧
    (∃ later : List Str,
      (handleConnection clock srv (pre ++ post)).out =
        (handleConnection clock srv pre).out ++ later ∧
      handleConnection clock srv (pre ++ u :: post) =
        { handleConnection clock srv (pre ++ post) with
          out := (handleConnection clock srv pre).out ++
            "500 Unknown command\r\n".toList :: later }) := by
  refine ⟨fun c rest => idle_unknown clock c u rest hu, ?_⟩
  rw [handleConnection_append clock srv pre post hpre,
    handleConnection_append clock srv pre (u :: post) hpre,
    idle_unknown clock _ u post hu]
  generalize handleConnection clock srv pre = c1
  have e1 : c1 = withOut c1.out { c1 with out := [] } := by simp [withOut]
  have e2 : ({ c1 with out := c1.out ++ ["500 Unknown command\r\n".toList] } : Conn) =
      withOut (c1.out ++ ["500 Unknown command\r\n".toList]) { c1 with out := [] } := by
    simp [withOut]
  refine ⟨(idle clock { c1 with out := [] } post).out, ?_, ?_⟩
  · conv_lhs => rw [e1, (withOut_frame clock post).1]
    rfl
  · rw [e2, (withOut_frame clock post).1]
    conv_rhs => rw [e1, (withOut_frame clock post).1]
    simp [withOut, List.append_assoc]

/-- Claim C12, instance: the line `FOO` after `MAIL FROM:<a@x>` and before
`NOOP`. -/
theorem unknown_command_only_adds_a_reply_witness :
    idle tickClock ⟨NewEmailServer 1025 8025, "<a@x>".toList, [], [], [], 0⟩
      ["FOO".toList, "NOOP".toList] =
      ⟨NewEmailServer 1025 8025, "<a@x>".toList, [], [],
        ["500 Unknown command\r\n".toList, "250 OK\r\n".toList], 0⟩ :=
  ((unknown_command_only_adds_a_reply tickClock (NewEmailServer 1025 8025)
      ["MAIL FROM:<a@x>".toList] ["NOOP".toList] "FOO".toList (by decide) (by decide)).1
    ⟨NewEmailServer 1025 8025, "<a@x>".toList, [], [], [], 0⟩ ["NOOP".toList]).trans (by decide)

/-- Claim C13: `GetEmails` returns the messages added since the last
`ClearEmails` (or since the new store, when there was none), in the order of
their `AddEmail` calls, each with the fields passed to `AddEmail`, an empty ID
replaced by a decimal number and a zero time by the clock reading
(`storedFrom`). `GetEmails` is a function of the store state: it returns no new
state, so collection and counter are as before the call. -/
theorem getEmails_insertion_order (smtpPort httpPort : Int) (before : List StoreOp)
    (calls : List (Email × Time)) :
    List.Forall₂ storedFrom
      (GetEmails (runOps (NewEmailServer smtpPort httpPort) (addCalls calls))) calls ∧
    List.Forall₂ storedFrom
      (GetEmails (runOps (NewEmailServer smtpPort httpPort)
        (before ++ StoreOp.clear :: addCalls calls))) calls := by
  constructor
  · obtain ⟨added, h1, h2⟩ := runOps_addCalls calls (NewEmailServer smtpPort httpPort)
    unfold GetEmails
    rw [h1]
    simpa [NewEmailServer] using h2
  · obtain ⟨added, h1, h2⟩ := runOps_addCalls calls
      (ClearEmails (runOps (NewEmailServer smtpPort httpPort) before))
    unfold GetEmails
    rw [runOps_append, runOps_cons]
    show List.Forall₂ storedFrom (runOps (ClearEmails _) (addCalls calls)).emails calls
    rw [h1]
    simpa [ClearEmails] using h2

/-- Claim C14, the code at the failing input: two messages added with times
1 and 2 are returned by `GetEmails` in that order, oldest first; the times of
the returned slice are not in non-increasing order. -/
theorem getEmails_keeps_insertion_order_not_recency :
    (GetEmails (runOps (NewEmailServer 1025 8025)
      [StoreOp.add ⟨[], "a".toList, [], [], [], false, 1⟩ 9,
       StoreOp.add ⟨[], "b".toList, [], [], [], false, 2⟩ 9])).map Email.Timestamp = [1, 2] ∧
    ¬ ((GetEmails (runOps (NewEmailServer 1025 8025)
      [StoreOp.add ⟨[], "a".toList, [], [], [], false, 1⟩ 9,
       StoreOp.add ⟨[], "b".toList, [], [], [], false, 2⟩ 9])).map Email.Timestamp).Pairwise
        (fun a b => a ≥ b) := by
  decide

/-- Claim C15: `GetEmailByID` is exact. If some stored message has the ID `id`,
the result is `true` with the earliest-inserted such message; the result is
`false` if and only if no stored message has that ID, and then the message
returned is the zero `Email`; after `ClearEmails` every identifier is not
found. `GetEmailByID` is a function of the store state and returns no new
state. -/
theorem getEmailByID_exact (s : EmailServer) (id : Str) :
    ((∃ e ∈ s.emails, e.ID = id) →
      ∃ (pre post : List Email) (e : Email), s.emails = pre ++ e :: post ∧ e.ID = id ∧
        (∀ x ∈ pre, x.ID ≠ id) ∧ GetEmailByID s id = (e, true)) ∧
    ((GetEmailByID s id).2 = false ↔ ∀ e ∈ s.emails, e.ID ≠ id) ∧
    ((∀ e ∈ s.emails, e.ID ≠ id) → GetEmailByID s id = (zeroEmail, false)) ∧
    GetEmailByID (ClearEmails s) id = (zeroEmail, false) := by
  have key : ∀ l : List Email, (∀ e ∈ l, e.ID ≠ id) → l.find? (fun e => decide (e.ID = id)) = none := by
    intro l hl
    rw [List.find?_eq_none]
    intro e he
    simpa using hl e he
  refine ⟨?_, ?_, ?_, ?_⟩
  · rintro ⟨e0, he0, hid0⟩
    cases hf : s.emails.find? (fun e => decide (e.ID = id)) with
    | none =>
      rw [List.find?_eq_none] at hf
      have := hf e0 he0
      simp [hid0] at this
    | some e =>
      obtain ⟨hp, pre, post, hsplit, hpre⟩ := List.find?_eq_some.1 hf
      refine ⟨pre, post, e, hsplit, by simpa using hp, ?_, ?_⟩
      · intro x hx
        simpa using hpre x hx
      · unfold GetEmailByID
        rw [hf]
  · unfold GetEmailByID
    cases hf : s.emails.find? (fun e => decide (e.ID = id)) with
    | none =>
      rw [List.find?_eq_none] at hf
      simp only [true_iff]
      intro e he
      simpa using hf e he
    | some e =>
      simp only [Bool.true_eq_false, false_iff]
      intro hall
      rw [key _ hall] at hf
      simp at hf
  · intro hall
    unfold GetEmailByID
    rw [key _ hall]
    rfl
  · rfl

/-- Claim C15, instance: two stored messages with the ID `7`; the first one is
returned. -/
theorem getEmailByID_exact_witness :
    ∃ (pre post : List Email) (e : Email),
      [(⟨"7".toList, "a".toList, [], [], [], false, 1⟩ : Email),
       ⟨"7".toList, "b".toList, [], [], [], false, 2⟩] = pre ++ e :: post ∧
      e.ID = "7".toList ∧ (∀ x ∈ pre, x.ID ≠ "7".toList) ∧
      GetEmailByID
        ⟨[⟨"7".toList, "a".toList, [], [], [], false, 1⟩,
          ⟨"7".toList, "b".toList, [], [], [], false, 2⟩], 1025, 8025, 1⟩ "7".toList = (e, true) :=
  (getEmailByID_exact
    ⟨[⟨"7".toList, "a".toList, [], [], [], false, 1⟩,
      ⟨"7".toList, "b".toList, [], [], [], false, 2⟩], 1025, 8025, 1⟩ "7".toList).1
    ⟨⟨"7".toList, "a".toList, [], [], [], false, 1⟩, by decide, rfl⟩

/-- Claim C17: transactions of one session are independent. Let `pre` end in the
data phase, so that `pre` followed by the line `.` is a line sequence ending
with a completed data phase, and let `s2` be any lines. The messages committed
by the session on these lines followed by `s2` are the messages `m1` committed
on the first part, followed by messages `m2` that say the same (sender,
recipients, subject, body, HTML) as the messages `m3` committed by a fresh
session on `s2` alone, whatever its store and clock. -/
theorem transactions_are_independent (clock clock1 : Nat → Time) (srv srv1 : EmailServer)
    (pre s2 : List Str) (hpre : phaseAfter pre = Phase.inData) :
    ∃ m1 m2 m3 : List Email,
      (handleConnection clock srv (pre ++ [['.']])).server.emails = srv.emails ++ m1 ∧
      (handleConnection clock srv (pre ++ [['.']] ++ s2)).server.emails =
        srv.emails ++ m1 ++ m2 ∧
      (handleConnection clock1 srv1 s2).server.emails = srv1.emails ++ m3 ∧
      m2.map content = m3.map content := by
  obtain ⟨c1, h1, h2⟩ := handleConnection_append_dot clock srv pre s2 hpre
  obtain ⟨m1, -, e1, -, -⟩ := (content_frame clock clock (pre ++ [['.']])).1
    { server := srv, sender := [], recipients := [], data := [],
      out := ["220 localhost SMTP server ready\r\n".toList], ticks := 0 }
    { server := srv, sender := [], recipients := [], data := [],
      out := ["220 localhost SMTP server ready\r\n".toList], ticks := 0 } rfl
  obtain ⟨m2, m3, e2, e3, e4⟩ := (content_frame clock clock1 s2).1 (commit clock c1)
    { server := srv1, sender := [], recipients := [], data := [],
      out := ["220 localhost SMTP server ready\r\n".toList], ticks := 0 } rfl
  have e1b : (handleConnection clock srv (pre ++ [['.']])).server.emails = srv.emails ++ m1 := e1
  refine ⟨m1, m2, m3, e1b, ?_, e3, e4⟩
  rw [h2, e2, ← h1, e1b]

/-- Claim C17, instance: a first transaction with sender and recipient,
followed by a second one with neither. -/
theorem transactions_are_independent_witness :
    ∃ m1 m2 m3 : List Email,
      (handleConnection tickClock (NewEmailServer 1025 8025)
        (["MAIL FROM:<a@x>".toList, "RCPT TO:<b@y>".toList, "DATA".toList, "one".toList] ++
          [['.']])).server.emails = (NewEmailServer 1025 8025).emails ++ m1 ∧
      (handleConnection tickClock (NewEmailServer 1025 8025)
        (["MAIL FROM:<a@x>".toList, "RCPT TO:<b@y>".toList, "DATA".toList, "one".toList] ++
          [['.']] ++ ["DATA".toList, "two".toList, ".".toList])).server.emails =
        (NewEmailServer 1025 8025).emails ++ m1 ++ m2 ∧
      (handleConnection tickClock (NewEmailServer 25 80)
        ["DATA".toList, "two".toList, ".".toList]).server.emails =
        (NewEmailServer 25 80).emails ++ m3 ∧
      m2.map content = m3.map content :=
  transactions_are_independent tickClock tickClock (NewEmailServer 1025 8025)
    (NewEmailServer 25 80)
    ["MAIL FROM:<a@x>".toList, "RCPT TO:<b@y>".toList, "DATA".toList, "one".toList]
    ["DATA".toList, "two".toList, ".".toList] (by decide)

/-- Claim C18: the last subject line wins. When the lines of the headers are
`pre`, then a line whose lowercase form starts with `subject:`, then lines
`post` none of which does, the subject of the message is the one extracted from
that line; headers that differ only in the lines `pre` before it give the same
subject, so earlier matching lines have no influence. -/
theorem last_subject_line_wins (clock clock1 : Nat → Time) (c c1 : Conn) (h b h1 b1 : Str)
    (pre pre1 post : List Str) (line : Str)
    (hc : c.data = h ++ blankLine ++ b) (hfirst : ¬ blankLine <:+: h ++ blankLine.dropLast)
    (hls : IsLines h (pre ++ line :: post))
    (hc1 : c1.data = h1 ++ blankLine ++ b1) (hfirst1 : ¬ blankLine <:+: h1 ++ blankLine.dropLast)
    (hls1 : IsLines h1 (pre1 ++ line :: post))
    (hline : "subject:".toList <+: ToLower line)
    (hpost : ∀ l ∈ post, ¬ "subject:".toList <+: ToLower l) :
    (newEmail clock c).Subject = TrimSpace (line.drop 8) ∧
    (newEmail clock1 c1).Subject = (newEmail clock c).Subject := by
  have hb : ∀ l ∈ post, HasPrefix (ToLower l) "subject:".toList = false := by
    intro l hl
    unfold HasPrefix
    have := hpost l hl
    rw [← List.isPrefixOf_iff_prefix] at this
    exact Bool.eq_false_iff.2 this
  have hl : HasPrefix (ToLower line) "subject:".toList = true :=
    List.isPrefixOf_iff_prefix.2 hline
  have e : ∀ (k : Nat → Time) (d : Conn) (x y : Str) (p : List Str),
      d.data = x ++ blankLine ++ y → ¬ blankLine <:+: x ++ blankLine.dropLast →
      IsLines x (p ++ line :: post) → (newEmail k d).Subject = TrimSpace (line.drop 8) := by
    intro k d x y p hd hf hl2
    simp only [newEmail, parseData_of_first d.data x y hd hf _ hl2]
    exact scanHeaders_fst_of_last_match p post line hl hb _
  rw [e clock c h b pre hc hfirst hls, e clock1 c1 h1 b1 pre1 hc1 hfirst1 hls1]
  exact ⟨rfl, rfl⟩

/-- Claim C18, instance: two buffers with different first subject lines and
the same last one. -/
theorem last_subject_line_wins_witness :
    (newEmail tickClock
      ⟨NewEmailServer 1025 8025, [], [], "Subject: a\r\nSUBJECT: z\r\nX: y\r\n\r\nb\r\n".toList,
        [], 0⟩).Subject = "z".toList ∧
    (newEmail tickClock
      ⟨NewEmailServer 1025 8025, [], [], "subject: c\r\nSUBJECT: z\r\nX: y\r\n\r\nd\r\n".toList,
        [], 0⟩).Subject =
      (newEmail tickClock
        ⟨NewEmailServer 1025 8025, [], [], "Subject: a\r\nSUBJECT: z\r\nX: y\r\n\r\nb\r\n".toList,
          [], 0⟩).Subject :=
  last_subject_line_wins tickClock tickClock
    ⟨NewEmailServer 1025 8025, [], [], "Subject: a\r\nSUBJECT: z\r\nX: y\r\n\r\nb\r\n".toList, [], 0⟩
    ⟨NewEmailServer 1025 8025, [], [], "subject: c\r\nSUBJECT: z\r\nX: y\r\n\r\nd\r\n".toList, [], 0⟩
    "Subject: a\r\nSUBJECT: z\r\nX: y".toList "b\r\n".toList
    "subject: c\r\nSUBJECT: z\r\nX: y".toList "d\r\n".toList
    ["Subject: a".toList] ["subject: c".toList] ["X: y".toList] "SUBJECT: z".toList
    (by decide) (by decide) ⟨by decide, by decide, by decide⟩
    (by decide) (by decide) ⟨by decide, by decide, by decide⟩ (by decide) (by decide)

/-- Claim C19: messages that reach the store through the handler have
store-assigned identifiers. The effect of a session on the store is that of a
sequence of `AddEmail` calls whose candidates have an empty ID. Hence, after any
sequence of sessions and `ClearEmails` calls on a new store, the i-th message
committed since the start has the decimal string of i as ID, the stored
messages are the last ones of that history, their IDs are pairwise different
and each is the decimal string of a positive number. -/
theorem session_ids_are_store_assigned :
    (∀ (clock : Nat → Time) (srv : EmailServer) (lines : List Str),
      ∃ ops : List StoreOp, (∀ op ∈ ops, isStoreAssigned op) ∧
        (handleConnection clock srv lines).server = runOps srv ops) ∧
    (∀ (smtpPort httpPort : Int) (evs : List Event),
      ((runEvents (NewEmailServer smtpPort httpPort, []) evs).2.map Email.ID =
        (List.range (runEvents (NewEmailServer smtpPort httpPort, []) evs).2.length).map
          (fun i => Nat.toDigits 10 (i + 1))) ∧
      (runEvents (NewEmailServer smtpPort httpPort, []) evs).1.emails <:+
        (runEvents (NewEmailServer smtpPort httpPort, []) evs).2 ∧
      ((runEvents (NewEmailServer smtpPort httpPort, []) evs).1.emails.map Email.ID).Nodup ∧
      (∀ e ∈ (runEvents (NewEmailServer smtpPort httpPort, []) evs).1.emails,
        ∃ k : Nat, 1 ≤ k ∧ e.ID = Nat.toDigits 10 k)) := by
  refine ⟨fun clock srv lines => (session_storeOps clock lines).1 _, fun p q evs => ?_⟩
  obtain ⟨h1, h2, -⟩ := historyOK_runEvents evs (NewEmailServer p q, [])
    ⟨rfl, by simp [NewEmailServer], by simp [NewEmailServer]⟩
  have hnd : ((runEvents (NewEmailServer p q, []) evs).2.map Email.ID).Nodup := by
    rw [h1]
    exact (List.nodup_range _).map toDigits_injective
  refine ⟨h1, h2, ?_, ?_⟩
  · exact hnd.sublist (h2.sublist.map _)
  · intro e he
    have hmem : e.ID ∈ (runEvents (NewEmailServer p q, []) evs).2.map Email.ID :=
      List.mem_map_of_mem _ (h2.subset he)
    rw [h1] at hmem
    obtain ⟨i, -, hi⟩ := List.mem_map.1 hmem
    exact ⟨i + 1, by omega, hi.symm⟩

/-- Claim C20: the slices taken while parsing are in range. `line[1:]` is taken
when the line starts with `.`, and then the line has at least 1 byte;
`line[8:]` is taken when the lowercase form of the line starts with `subject:`,
and then the first 8 runes of the line are ASCII, a letter-case variant of
`subject:`, so that the line has at least 8 bytes and byte 8 is a rune
boundary. A slice beyond the length fails (`sliceFrom_beyond`), but the checked
forms of the data step and of the header scan never fail and agree with the
unchecked ones, and the data phase always ends with a message added to the
store. -/
theorem parsing_slices_are_in_range :
    (∀ line : Str, HasPrefix line ['.'] = true →
      1 ≤ byteLength line ∧ sliceFrom line 1 = some (line.drop 1)) ∧
    (∀ line : Str, HasPrefix (ToLower line) "subject:".toList = true →
      8 ≤ byteLength line ∧ (∀ c ∈ line.take 8, c.toNat < 128) ∧
        (line.take 8).map Char.toLower = "subject:".toList ∧
        sliceFrom line 8 = some (line.drop 8)) ∧
    (∀ (s : Str) (n : Nat), byteLength s < n → sliceFrom s n = none) ∧
    (∀ (c : Conn) (line : Str), appendDataChecked c line = some (appendData c line)) ∧
    (∀ (ls : List Str) (acc : Str × Bool),
      scanHeadersChecked ls acc = some (scanHeaders ls acc)) ∧
    (∀ (clock : Nat → Time) (c : Conn) (lines : List Str),
      ∃ (e : Email) (m : List Email),
        (inData clock c lines).server.emails = c.server.emails ++ e :: m) :=
  ⟨dot_slice, subject_slice, sliceFrom_beyond, appendDataChecked_eq, scanHeadersChecked_eq,
    fun clock c lines => inData_commits clock lines c⟩

/-- Claim C20, instance: the slices of `.x` at 1 and of `SubJect: Hi` at 8. -/
theorem parsing_slices_are_in_range_witness :
    sliceFrom ".x".toList 1 = some "x".toList ∧
    sliceFrom "SubJect: Hi".toList 8 = some " Hi".toList :=
  ⟨(parsing_slices_are_in_range.1 ".x".toList (by decide)).2,
   (parsing_slices_are_in_range.2.1 "SubJect: Hi".toList (by decide)).2.2.2⟩

end GoMailSim
